import Mathlib

/-!
# Verification of the `unbin` binary serialization library

This file gives a shallow embedding, in Lean 4, of the `unbin` Rust crate:
a compact binary encoder/decoder for structured values (primitives,
optionals, sequences, maps, tuples, records, tagged unions), driven by the
serde traversal protocol.

The embedding follows the source files:

* `src/util.rs`   — the two-tier length codec (`encode_len_large`,
  `decode_len_large`, `encode_len_small`, `decode_len_small`);
* `src/write.rs`  — the byte sink (`BytesWriter`, whose `write_all` appends
  to a growable vector and never fails);
* `src/read.rs`   — the byte sources: the blanket implementation over any
  `std::io::Read` stream, and the slice-backed `BytesReader` whose
  `read_exact` silently truncates short reads while its borrowed-view
  `read_bytes` fails with `UnexpectedEof`;
* `src/encode.rs` — the `Serializer` implementation (`Encoder`) together
  with the sub-encoders for sequences, tuples, maps, structs and enum
  variants;
* `src/decode.rs` — the `Deserializer` implementation (`Decoder`) together
  with `SeqDecoder`, `MapDecoder`, `EnumDecoder` and `VariantDecoder`;
* `src/error.rs`  — the `Error` enum.

Bytes are modelled as natural numbers (each meaningful byte is `< 256`);
byte buffers are `List Nat`.  Machine integers (`usize`, `u8`, ...) are
modelled as `Nat`/`Int` with explicit `% 2 ^ w` where the Rust code
truncates.  Fallible operations return explicit result types; the one
place the Rust code can panic (`deserialize_char` on a width byte of `0`
or larger than `4`) is modelled by a dedicated `panicked` outcome.
-/

namespace Unbin

/-! ## Length codec (`src/util.rs`) -/

/-- Mirrors `encode_len_small` from `src/util.rs`: `len as u8`. -/
def encode_len_small (len : Nat) : Nat :=
  len % 256

/-- Mirrors `decode_len_small` from `src/util.rs`: `len_encoded as usize`. -/
def decode_len_small (len_encoded : Nat) : Nat :=
  len_encoded

/-- Fuel-driven helper computing the little-endian base-256 digit list of
`len`, mirroring the `while len > 0` loop of `encode_len_large` in
`src/util.rs` (each iteration pushes `len as u8` and shifts `len` right by
8 bits).  The fuel argument only serves to make the recursion structural;
`fuel = len` always suffices because `len / 256 < len` for positive
`len`. -/
def lenDigitsAux : Nat → Nat → List Nat
  | _, 0 => []
  | 0, _ + 1 => []
  | fuel + 1, len + 1 => ((len + 1) % 256) :: lenDigitsAux fuel ((len + 1) / 256)

/-- The little-endian base-256 digits of `len`, with no trailing zero
digit; the list built by the loop of `encode_len_large`. -/
def lenDigits (len : Nat) : List Nat :=
  lenDigitsAux len len

/-- Mirrors `encode_len_large` from `src/util.rs`: push the little-endian
digits of `len`, push the digit count (`as u8`), then reverse, producing
`[count, b_k, ..., b_0]` with the digits now in big-endian order. -/
def encode_len_large (len : Nat) : List Nat :=
  ((lenDigits len).length % 256) :: (lenDigits len).reverse

/-- Mirrors `decode_len_large` from `src/util.rs`: the big-endian fold
`len = (len << 8) + b` over the given bytes. -/
def decode_len_large (len_encoded : List Nat) : Nat :=
  len_encoded.foldl (fun len b => len * 256 + b) 0

/-! ### Length codec lemmas -/

/-- Zero needs no digits regardless of fuel. -/
theorem lenDigitsAux_zero (fuel : Nat) : lenDigitsAux fuel 0 = [] := by
  cases fuel <;> rfl

/-- The fuel argument of `lenDigitsAux` is irrelevant once it dominates
the value. -/
theorem lenDigitsAux_fuel (fuel fuel₂ len : Nat) (h : len ≤ fuel)
    (h₂ : len ≤ fuel₂) : lenDigitsAux fuel len = lenDigitsAux fuel₂ len := by
  induction fuel using Nat.strong_induction_on generalizing fuel₂ len with
  | _ fuel ih =>
    match fuel, fuel₂, len with
    | fuel, fuel₂, 0 => rw [lenDigitsAux_zero, lenDigitsAux_zero]
    | fuel + 1, fuel₂ + 1, len + 1 =>
      simp only [lenDigitsAux]
      congr 1
      have hdiv : (len + 1) / 256 < len + 1 :=
        Nat.div_lt_self (Nat.succ_pos len) (by norm_num)
      exact ih fuel (Nat.lt_succ_self fuel) _ _ (by omega) (by omega)

/-- Unfolding equation for `lenDigits` on positive input. -/
theorem lenDigits_pos (len : Nat) (h : 0 < len) :
    lenDigits len = len % 256 :: lenDigits (len / 256) := by
  match len, h with
  | len + 1, _ =>
    show lenDigitsAux (len + 1) (len + 1) = _
    rw [show lenDigitsAux (len + 1) (len + 1)
        = ((len + 1) % 256) :: lenDigitsAux len ((len + 1) / 256) from rfl]
    congr 1
    exact lenDigitsAux_fuel len ((len + 1) / 256) ((len + 1) / 256)
      (by
        have : (len + 1) / 256 < len + 1 :=
          Nat.div_lt_self (Nat.succ_pos len) (by norm_num)
        omega)
      (le_refl _)

@[simp] theorem lenDigits_zero : lenDigits 0 = [] := rfl

/-- The value represented by a little-endian digit list. -/
def leVal : List Nat → Nat
  | [] => 0
  | b :: rest => b + 256 * leVal rest

/-- The big-endian fold of a reversed digit list recovers the
little-endian value. -/
theorem decode_len_large_reverse (l : List Nat) :
    decode_len_large l.reverse = leVal l := by
  induction l with
  | nil => rfl
  | cons b rest ih =>
    simp only [decode_len_large, List.reverse_cons, List.foldl_append,
      List.foldl_cons, List.foldl_nil, leVal]
    simp only [decode_len_large] at ih
    omega

/-- The digit list of `len` represents `len`. -/
theorem leVal_lenDigits (len : Nat) : leVal (lenDigits len) = len := by
  induction len using Nat.strong_induction_on with
  | _ len ih =>
    rcases Nat.eq_zero_or_pos len with h | h
    · subst h; rfl
    · rw [lenDigits_pos len h, leVal,
        ih (len / 256) (Nat.div_lt_self h (by norm_num))]
      omega

/-- The last digit (the most significant byte after reversal) is never
zero. -/
theorem lenDigits_getLast?_ne_zero (len : Nat) (h : 0 < len) :
    ∀ b, (lenDigits len).getLast? = some b → b ≠ 0 := by
  induction len using Nat.strong_induction_on with
  | _ len ih =>
    intro b hb
    rw [lenDigits_pos len h] at hb
    rcases Nat.eq_zero_or_pos (len / 256) with hdiv | hdiv
    · rw [hdiv, lenDigits_zero] at hb
      simp only [List.getLast?_singleton, Option.some_inj] at hb
      have hlt : len < 256 := by
        rcases Nat.lt_or_ge len 256 with h' | h'
        · exact h'
        · exact absurd (Nat.div_pos h' (by norm_num)) (by omega)
      omega
    · rw [lenDigits_pos _ hdiv] at hb
      rw [List.getLast?_cons_cons] at hb
      rw [← lenDigits_pos _ hdiv] at hb
      exact ih (len / 256) (Nat.div_lt_self h (by norm_num)) hdiv b hb

/-- The digit count of `len` bounds `len` above: `len < 256 ^ count`. -/
theorem lenDigits_length_upper (len : Nat) :
    len < 256 ^ (lenDigits len).length := by
  induction len using Nat.strong_induction_on with
  | _ len ih =>
    rcases Nat.eq_zero_or_pos len with h | h
    · subst h; simp
    · rw [lenDigits_pos len h]
      have := ih (len / 256) (Nat.div_lt_self h (by norm_num))
      simp only [List.length_cons, pow_succ]
      calc len < (len / 256 + 1) * 256 := by omega
        _ ≤ 256 ^ (lenDigits (len / 256)).length * 256 := by
            exact Nat.mul_le_mul_right 256 (by omega)

/-- The digit count of `len` is minimal: `256 ^ (count - 1) ≤ len` for
positive `len`. -/
theorem lenDigits_length_lower (len : Nat) (h : 0 < len) :
    256 ^ ((lenDigits len).length - 1) ≤ len := by
  induction len using Nat.strong_induction_on with
  | _ len ih =>
    rw [lenDigits_pos len h]
    rcases Nat.eq_zero_or_pos (len / 256) with hdiv | hdiv
    · rw [hdiv]; simpa using h
    · have hlt : len / 256 < len := Nat.div_lt_self h (by norm_num)
      have := ih (len / 256) hlt hdiv
      have hne : lenDigits (len / 256) ≠ [] := by
        rw [lenDigits_pos _ hdiv]; exact List.cons_ne_nil _ _
      simp only [List.length_cons, Nat.add_sub_cancel]
      have hlen1 : 1 ≤ (lenDigits (len / 256)).length :=
        List.length_pos.mpr hne
      calc 256 ^ (lenDigits (len / 256)).length
          = 256 ^ ((lenDigits (len / 256)).length - 1) * 256 := by
            rw [← pow_succ]
            congr 1
            omega
        _ ≤ (len / 256) * 256 := Nat.mul_le_mul_right 256 this
        _ ≤ len := by
            have := Nat.div_mul_le_self len 256
            omega

/-- Digit count of `0` is `0`. -/
theorem lenDigits_length_zero_iff (len : Nat) :
    (lenDigits len).length = 0 ↔ len = 0 := by
  constructor
  · intro h
    by_contra hne
    rw [lenDigits_pos len (Nat.pos_of_ne_zero hne)] at h
    simp at h
  · intro h; subst h; rfl

/-- Values below `2 ^ 64` (any `usize` value) have at most eight
digits. -/
theorem lenDigits_length_le_eight (len : Nat) (h : len < 2 ^ 64) :
    (lenDigits len).length ≤ 8 := by
  by_contra hgt
  have h9 : 9 ≤ (lenDigits len).length := by omega
  have hpos : 0 < len := by
    rcases Nat.eq_zero_or_pos len with h0 | h0
    · subst h0; simp at h9
    · exact h0
  have := lenDigits_length_lower len hpos
  have hmono : (256 : Nat) ^ 8 ≤ 256 ^ ((lenDigits len).length - 1) :=
    Nat.pow_le_pow_right (by norm_num) (by omega)
  have : (256 : Nat) ^ 8 ≤ len := le_trans hmono this
  norm_num at this
  omega

/-- **C2.**  Canonical length framing, for every value representable as a
`usize` (`n < 2 ^ 64`): decoding the tier-2 portion of
`encode_len_large n` yields `n` back; the tier-1 byte equals the number
of tier-2 bytes, which is the minimal big-endian byte count of `n`
(zero exactly when `n = 0`, with `n < 256 ^ k` and, for positive `n`,
`256 ^ (k - 1) ≤ n`); and the tier-2 portion carries no leading zero
byte, so the representation is unique. -/
theorem encode_len_large_canonical (n : Nat) (h : n < 2 ^ 64) :
    decode_len_large (encode_len_large n).tail = n
    ∧ (encode_len_large n).head? = some (encode_len_large n).tail.length
    ∧ (n = 0 ↔ (encode_len_large n).tail.length = 0)
    ∧ n < 256 ^ (encode_len_large n).tail.length
    ∧ (0 < n → 256 ^ ((encode_len_large n).tail.length - 1) ≤ n)
    ∧ (∀ b, (encode_len_large n).tail.head? = some b → b ≠ 0) := by
  have hlen8 := lenDigits_length_le_eight n h
  have hmod : (lenDigits n).length % 256 = (lenDigits n).length :=
    Nat.mod_eq_of_lt (by omega)
  refine ⟨?_, ?_, ?_, ?_, ?_, ?_⟩
  · show decode_len_large (lenDigits n).reverse = n
    rw [decode_len_large_reverse, leVal_lenDigits]
  · show some ((lenDigits n).length % 256)
      = some (lenDigits n).reverse.length
    rw [hmod, List.length_reverse]
  · show n = 0 ↔ (lenDigits n).reverse.length = 0
    rw [List.length_reverse]
    exact (lenDigits_length_zero_iff n).symm
  · show n < 256 ^ (lenDigits n).reverse.length
    rw [List.length_reverse]
    exact lenDigits_length_upper n
  · intro hpos
    show 256 ^ ((lenDigits n).reverse.length - 1) ≤ n
    rw [List.length_reverse]
    exact lenDigits_length_lower n hpos
  · intro b hb
    show b ≠ 0
    have hrev : (lenDigits n).reverse.head? = some b := hb
    rw [List.head?_reverse] at hrev
    rcases Nat.eq_zero_or_pos n with h0 | h0
    · subst h0; simp at hrev
    · exact lenDigits_getLast?_ne_zero n h0 b hrev

/-- Witness for C2 at the boundary value `n = 65535`: the encoding is
`[2, 255, 255]` and every clause of the canonicity statement holds
there. -/
theorem encode_len_large_canonical_witness :
    decode_len_large (encode_len_large 65535).tail = 65535
    ∧ (encode_len_large 65535).head? = some (encode_len_large 65535).tail.length
    ∧ (65535 = 0 ↔ (encode_len_large 65535).tail.length = 0)
    ∧ 65535 < 256 ^ (encode_len_large 65535).tail.length
    ∧ (0 < 65535 → 256 ^ ((encode_len_large 65535).tail.length - 1) ≤ 65535)
    ∧ (∀ b, (encode_len_large 65535).tail.head? = some b → b ≠ 0) :=
  encode_len_large_canonical 65535 (by norm_num)

/-! ## Errors (`src/error.rs`) -/

/-- Mirrors the `ValueType` enum of `src/error.rs` (the logical type named
by an `InvalidBytes` error). -/
inductive ValueType where
  | bool | i8 | i16 | i32 | i64 | i128 | u8 | u16 | u32 | u64 | u128
  | f32 | f64 | char | str | string | bytes | byteBuf | option | unit
  | unitStruct | newtypeStruct | seq | tuple | tupleStruct | map | struct
  | enum
  deriving DecidableEq, Repr

/-- Mirrors the `Error` enum of `src/error.rs`.  `ioError` stands for the
wrapped `std::io::Error`; `fieldSkippingNotAllowed` is the variant
`encode.rs` constructs in `skip_field`. -/
inductive Err where
  | unknownSeqLengthNotAllowed
  | unknownMapLengthNotAllowed
  | tooManyVariants (name : String)
  | cannotDeserializeAny
  | cannotDeserializeIdentifier
  | unexpectedEof
  | invalidBytes (ty : ValueType) (bytes : List Nat)
  | ioError
  | utf8Error
  | fieldSkippingNotAllowed (key : String)
  | custom (msg : String)
  deriving DecidableEq, Repr

/-! ## Values and shapes

The serde data model, restricted to the shapes the engine supports.  A
`Value` is what a `Serialize` implementation presents to the encoder;
a `Shape` is the static structure a `Deserialize` implementation
requests from the decoder.  Field lists and element lists are
represented as `vnil`/`vcons` chains (respectively `snilS`/`sconsS`)
so that every definition below is plain structural recursion.

Fixed-width integers carry their byte width `w` (1, 2, 4, 8 or 16 for
the Rust types `i8`..`i128`/`u8`..`u128`); floats are carried as their
IEEE-754 bit patterns, since the engine only moves their big-endian
bytes.  `unitV` covers both `()` and unit structs, `tupleV` covers
tuples, tuple structs and structs (all encode as plain concatenation,
and `deserialize_struct` decodes through the same `SeqDecoder` path as
tuples).  Newtype structs are transparent in both directions and are
therefore represented by their payload. -/

/-- A value presented to the encoder (and reconstructed by the
decoder). -/
inductive Value where
  | boolV (b : Bool)
  | intV (w : Nat) (n : Int)
  | uintV (w : Nat) (n : Nat)
  | f32V (bits : Nat)
  | f64V (bits : Nat)
  | charV (c : Nat)
  | strV (bytes : List Nat)
  | bytesV (bytes : List Nat)
  | unitV
  | noneV
  | someV (v : Value)
  | vnil
  | vcons (hd tl : Value)
  | pairV (a b : Value)
  | tupleV (fields : Value)
  | seqV (elems : Value)
  | mapV (entries : Value)
  | enumUnitV (name : String) (idx : Nat)
  | enumNewtypeV (name : String) (idx : Nat) (v : Value)
  | enumTupleV (name : String) (idx : Nat) (fields : Value)
  | enumStructV (name : String) (idx : Nat) (fields : Value)
  deriving DecidableEq, Repr

/-- The static shape a decode call is driven by.  Variant shapes
(`vsUnitS`, `vsNewtypeS`, `vsTupleS`, `vsStructS`) only occur inside the
`snilS`/`sconsS` variant chain of an `enumS`. -/
inductive Shape where
  | boolS
  | intS (w : Nat)
  | uintS (w : Nat)
  | f32S
  | f64S
  | charS
  | strS
  | bytesS
  | unitS
  | optionS (s : Shape)
  | snilS
  | sconsS (hd tl : Shape)
  | tupleS (fields : Shape)
  | seqS (elem : Shape)
  | mapS (key val : Shape)
  | enumS (name : String) (variants : Shape)
  | vsUnitS
  | vsNewtypeS (s : Shape)
  | vsTupleS (fields : Shape)
  | vsStructS (fields : Shape)
  deriving DecidableEq, Repr

/-- Length of a `vnil`/`vcons` chain (the `len` a serde collection
reports for itself). -/
def chainLen : Value → Nat
  | .vcons _ t => chainLen t + 1
  | _ => 0

/-- Number of variants in a `snilS`/`sconsS` chain. -/
def shapeChainLen : Shape → Nat
  | .sconsS _ t => shapeChainLen t + 1
  | _ => 0

/-! ## Byte-level helpers -/

/-- Big-endian bytes of `n`, exactly `w` bytes wide (the semantics of
`to_be_bytes` on a `w`-byte unsigned integer; the value is implicitly
reduced modulo `256 ^ w`). -/
def beBytes : Nat → Nat → List Nat
  | 0, _ => []
  | w + 1, n => beBytes w (n / 256) ++ [n % 256]

/-- Big-endian fold of a byte list (the semantics of `from_be_bytes`). -/
def fromBeBytes (bytes : List Nat) : Nat :=
  bytes.foldl (fun acc b => acc * 256 + b) 0

/-- Reinterpret the unsigned value of a `w`-byte big-endian load as a
signed two's-complement integer (the semantics of `iN::from_be_bytes`). -/
def toSigned (w : Nat) (n : Nat) : Int :=
  if n < 2 ^ (8 * w - 1) then (n : Int) else (n : Int) - 2 ^ (8 * w)

/-- UTF-8 byte width of the scalar `c` (Rust `char::len_utf8`). -/
def utf8Len (c : Nat) : Nat :=
  if c < 0x80 then 1
  else if c < 0x800 then 2
  else if c < 0x10000 then 3
  else 4

/-- UTF-8 encoding of the scalar `c` (Rust `char::encode_utf8`). -/
def utf8EncodeChar (c : Nat) : List Nat :=
  if c < 0x80 then [c]
  else if c < 0x800 then [0xC0 + c / 64, 0x80 + c % 64]
  else if c < 0x10000 then [0xE0 + c / 4096, 0x80 + c / 64 % 64, 0x80 + c % 64]
  else [0xF0 + c / 262144, 0x80 + c / 4096 % 64, 0x80 + c / 64 % 64,
    0x80 + c % 64]

/-- A Unicode scalar value: below `0x110000` and not a surrogate. -/
def validScalar (c : Nat) : Bool :=
  (c < 0xD800 || (0xE000 ≤ c && c < 0x110000))

/-! ## The byte sink (`src/write.rs`) -/

/-- Mirrors `BytesWriter::write_all` from `src/write.rs`: appending to a
`Vec<u8>` through `io::Write::write` cannot fail. -/
def bytesWriterWriteAll (w buf : List Nat) : List Nat × Option Err :=
  (w ++ buf, none)

/-! ## The encoder (`src/encode.rs`)

`encodeVal v sink` threads the `BytesWriter` state through the encoding
of `v`, mirroring the `Serializer` implementation of `src/encode.rs`
composed with a derived `Serialize` implementation.  The result pairs
the final sink contents with the error, if any, so that bytes written
before a failure remain observable.  Following the source:

* every write appends (`BytesWriter::write_all` is infallible);
* chains encode as plain concatenation with left-to-right
  short-circuiting on error (`serialize_element` / `serialize_field`
  calls in declaration order);
* `serialize_some` writes its `1` byte before the payload;
* `SeqEncoder::new` / `MapEncoder::new` write the large length up
  front;
* the four variant paths (`serialize_unit_variant`,
  `serialize_newtype_variant`, `TupleVariantEncoder::new`,
  `StructVariantEncoder::new`) test `variant_index < 256` before
  writing the single tag byte, and fail with `TooManyVariants`
  carrying the union name otherwise. -/
def encodeVal : Value → List Nat → List Nat × Option Err
  | .boolV b, sink => (sink ++ [if b then 1 else 0], none)
  | .intV w n, sink => (sink ++ beBytes w (n % (2 ^ (8 * w))).toNat, none)
  | .uintV w n, sink => (sink ++ beBytes w n, none)
  | .f32V bits, sink => (sink ++ beBytes 4 bits, none)
  | .f64V bits, sink => (sink ++ beBytes 8 bits, none)
  | .charV c, sink =>
      (sink ++ encode_len_small (utf8Len c) :: utf8EncodeChar c, none)
  | .strV bs, sink => (sink ++ encode_len_large bs.length ++ bs, none)
  | .bytesV bs, sink => (sink ++ encode_len_large bs.length ++ bs, none)
  | .unitV, sink => (sink, none)
  | .noneV, sink => (sink ++ [0], none)
  | .someV v, sink => encodeVal v (sink ++ [1])
  | .vnil, sink => (sink, none)
  | .vcons h t, sink =>
      match encodeVal h sink with
      | (sink₂, none) => encodeVal t sink₂
      | (sink₂, some e) => (sink₂, some e)
  | .pairV a b, sink =>
      match encodeVal a sink with
      | (sink₂, none) => encodeVal b sink₂
      | (sink₂, some e) => (sink₂, some e)
  | .tupleV fields, sink => encodeVal fields sink
  | .seqV elems, sink =>
      encodeVal elems (sink ++ encode_len_large (chainLen elems))
  | .mapV entries, sink =>
      encodeVal entries (sink ++ encode_len_large (chainLen entries))
  | .enumUnitV name idx, sink =>
      if idx < 256 then (sink ++ [idx % 256], none)
      else (sink, some (.tooManyVariants name))
  | .enumNewtypeV name idx v, sink =>
      if idx < 256 then encodeVal v (sink ++ [idx % 256])
      else (sink, some (.tooManyVariants name))
  | .enumTupleV name idx fields, sink =>
      if idx < 256 then encodeVal fields (sink ++ [idx % 256])
      else (sink, some (.tooManyVariants name))
  | .enumStructV name idx fields, sink =>
      if idx < 256 then encodeVal fields (sink ++ [idx % 256])
      else (sink, some (.tooManyVariants name))

/-- Mirrors the top-level `serialize` entry point of `src/lib.rs`: encode
into a fresh `BytesWriter` and return its buffer, or propagate the
encoder error. -/
def serialize (v : Value) : Except Err (List Nat) :=
  match encodeVal v [] with
  | (out, none) => .ok out
  | (_, some e) => .error e

/-- Mirrors `serialize_seq` from `src/encode.rs` composed with
`SeqEncoder::new`: a known length is framed with the large length codec
up front; an unknown length is rejected before anything is written. -/
def serializeSeqStart (len : Option Nat) (sink : List Nat) :
    List Nat × Option Err :=
  match len with
  | some l => (sink ++ encode_len_large l, none)
  | none => (sink, some .unknownSeqLengthNotAllowed)

/-- Mirrors `serialize_map` from `src/encode.rs` composed with
`MapEncoder::new`. -/
def serializeMapStart (len : Option Nat) (sink : List Nat) :
    List Nat × Option Err :=
  match len with
  | some l => (sink ++ encode_len_large l, none)
  | none => (sink, some .unknownMapLengthNotAllowed)

/-- Mirrors `skip_field` from `src/encode.rs` (both `StructEncoder` and
`StructVariantEncoder`): always rejected, nothing written. -/
def skipField (key : String) (sink : List Nat) : List Nat × Option Err :=
  (sink, some (.fieldSkippingNotAllowed key))

/-- Encoder-level errors: the failures the encoder itself can produce,
as opposed to transport errors (`ioError`, `unexpectedEof`) and
decode-side errors. -/
def encoderLevelErr : Err → Bool
  | .unknownSeqLengthNotAllowed => true
  | .unknownMapLengthNotAllowed => true
  | .tooManyVariants _ => true
  | .fieldSkippingNotAllowed _ => true
  | .custom _ => true
  | _ => false

/-! ## Byte sources (`src/read.rs`)

Two `Read` implementations exist.  The blanket implementation over any
`std::io::Read` delegates `read_exact` to the standard library, which
fills the buffer completely or fails with an `UnexpectedEof` I/O error
(wrapped into `Err.ioError` by the `From` conversion).  The slice-backed
`BytesReader` instead implements `read_exact` with `buf.write(self.bytes)`,
which copies only `min(buf.len, remaining)` bytes, leaves the rest of the
destination untouched, and never fails; its borrowed-view `read_bytes`
is the only path that fails (`UnexpectedEof`) on shortage. -/

/-- Mirrors the blanket `read_exact` of `src/read.rs` for any
`R: io::Read` over an in-memory stream of bytes, per the standard library
contract of `std::io::Read::read_exact`: fill completely or fail. -/
def streamReadExact (n : Nat) (src : List Nat) :
    Except Err (List Nat × List Nat) :=
  if n ≤ src.length then .ok (src.take n, src.drop n)
  else .error .ioError

/-- Mirrors `BytesReader::read_exact` from `src/read.rs`: the destination
buffer `buf` receives `min(buf.len, remaining)` bytes at its front, the
rest of `buf` keeps its previous contents, the cursor advances by the
number of bytes copied, and the call always succeeds.  Returns the new
buffer contents and the new cursor state. -/
def bytesReaderReadExact (buf st : List Nat) : List Nat × List Nat :=
  let numBytes := min buf.length st.length
  (st.take numBytes ++ buf.drop numBytes, st.drop numBytes)

/-- The composition `read_n_array` / `read_n_vec` over
`BytesReader::read_exact`: the destination starts as `n` zero bytes, so
the result is the next `min(n, remaining)` input bytes padded with
zeros, and the call always succeeds. -/
def readExactPad (n : Nat) (st : List Nat) : List Nat × List Nat :=
  (st.take n ++ List.replicate (n - st.length) 0, st.drop n)

/-- Mirrors `BytesReader::read_bytes` from `src/read.rs`: the borrowed
sub-slice of the requested length, or `UnexpectedEof` when fewer bytes
remain. -/
def readBytesBorrowed (n : Nat) (st : List Nat) :
    Except Err (List Nat × List Nat) :=
  if n ≤ st.length then .ok (st.take n, st.drop n)
  else .error .unexpectedEof

/-! ## UTF-8 (`std::str::from_utf8`)

The decoder validates text through `std::str::from_utf8`.  The model
decodes scalars off the front of the byte list, enforcing exactly the
well-formedness conditions of UTF-8: continuation bytes in
`0x80..0xBF`, no overlong forms, no surrogates, nothing above
`0x10FFFF`. -/

/-- A UTF-8 continuation byte. -/
def isCont (b : Nat) : Bool :=
  0x80 ≤ b && b < 0xC0

/-- Decode one scalar from the front of the list, validating the
encoding; `none` on any malformed head. -/
def utf8DecodeOne : List Nat → Option (Nat × List Nat)
  | [] => none
  | b :: rest =>
    if b < 0x80 then some (b, rest)
    else if b < 0xC0 then none
    else if b < 0xE0 then
      match rest with
      | b₁ :: r =>
        if isCont b₁ then
          let c := (b - 0xC0) * 0x40 + (b₁ - 0x80)
          if 0x80 ≤ c then some (c, r) else none
        else none
      | [] => none
    else if b < 0xF0 then
      match rest with
      | b₁ :: b₂ :: r =>
        if isCont b₁ && isCont b₂ then
          let c := (b - 0xE0) * 0x1000 + (b₁ - 0x80) * 0x40 + (b₂ - 0x80)
          if 0x800 ≤ c && !(0xD800 ≤ c && c < 0xE000) then some (c, r)
          else none
        else none
      | _ => none
    else if b < 0xF8 then
      match rest with
      | b₁ :: b₂ :: b₃ :: r =>
        if isCont b₁ && isCont b₂ && isCont b₃ then
          let c := (b - 0xF0) * 0x40000 + (b₁ - 0x80) * 0x1000
            + (b₂ - 0x80) * 0x40 + (b₃ - 0x80)
          if 0x10000 ≤ c && c < 0x110000 then some (c, r) else none
        else none
      | _ => none
    else none

/-- Fuel-driven decoding of a whole byte list into its scalar sequence;
`fuel = length` always suffices because each scalar consumes at least
one byte. -/
def utf8DecodeAllAux : Nat → List Nat → Option (List Nat)
  | _, [] => some []
  | 0, _ :: _ => none
  | fuel + 1, b :: rest =>
    match utf8DecodeOne (b :: rest) with
    | none => none
    | some (c, r) => (utf8DecodeAllAux fuel r).map (c :: ·)

/-- The scalar sequence of a byte list, or `none` when it is not valid
UTF-8 (the semantics of `std::str::from_utf8` followed by `.chars()`). -/
def utf8DecodeAll (l : List Nat) : Option (List Nat) :=
  utf8DecodeAllAux l.length l

/-- Validity test (the success of `std::str::from_utf8`). -/
def utf8Valid (l : List Nat) : Bool :=
  (utf8DecodeAll l).isSome

/-! ## The decoder (`src/decode.rs`) -/

/-- Outcome of a decode step: a value, a typed error, or a Rust panic
(the `unwrap`/slice-index failures reachable in `deserialize_char`). -/
inductive DResult (α : Type) where
  | ok (a : α)
  | err (e : Err)
  | panicked (msg : String)
  deriving DecidableEq, Repr

/-- Run `dec` exactly `n` times, collecting results into a chain: the
behavior of `SeqDecoder`/`MapDecoder` from `src/decode.rs`, whose
remaining-count starts at `n`, decrements once per element (per key, for
maps), and stops issuing elements at zero, composed with a visitor that
collects every issued element. -/
def decodeElems (dec : List Nat → DResult (Value × List Nat)) :
    Nat → List Nat → DResult (Value × List Nat)
  | 0, st => .ok (.vnil, st)
  | n + 1, st =>
    match dec st with
    | .ok (v, st₁) =>
      match decodeElems dec n st₁ with
      | .ok (chain, st₂) => .ok (.vcons v chain, st₂)
      | .err e => .err e
      | .panicked m => .panicked m
    | .err e => .err e
    | .panicked m => .panicked m

mutual

/-- Mirrors the `Deserializer` implementation of `src/decode.rs`, driven
by the requested `Shape` (the derived `Deserialize` implementation of the
target type) over a `BytesReader` cursor (`List Nat` of remaining
bytes).  All fixed-size reads go through `read_n_array`/`read_n_vec`,
hence `readExactPad` (zero-padding, infallible); only string/bytes
payloads go through the borrowed `read_bytes` path.  The `charS` case
reproduces the two reachable panics of `deserialize_char`: a width byte
of `0` makes `.chars().take(1).next().unwrap()` unwrap `None`, and a
width byte above `4` makes the index computation `4 - decoded_len`
underflow. -/
def decodeValue : Shape → List Nat → DResult (Value × List Nat)
  | .boolS, st =>
    let r := readExactPad 1 st
    let b := r.1.headD 0
    if b = 0 then .ok (.boolV false, r.2)
    else if b = 1 then .ok (.boolV true, r.2)
    else .err (.invalidBytes .bool r.1)
  | .intS w, st =>
    let r := readExactPad w st
    .ok (.intV w (toSigned w (fromBeBytes r.1)), r.2)
  | .uintS w, st =>
    let r := readExactPad w st
    .ok (.uintV w (fromBeBytes r.1), r.2)
  | .f32S, st =>
    let r := readExactPad 4 st
    .ok (.f32V (fromBeBytes r.1), r.2)
  | .f64S, st =>
    let r := readExactPad 8 st
    .ok (.f64V (fromBeBytes r.1), r.2)
  | .charS, st =>
    let r := readExactPad 1 st
    let dl := decode_len_small (r.1.headD 0)
    if dl = 0 then .panicked "called Option::unwrap on a None value"
    else if 4 < dl then .panicked "attempt to subtract with overflow"
    else
      let r₂ := readExactPad dl r.2
      match utf8DecodeAll r₂.1 with
      | none => .err .utf8Error
      | some [] => .panicked "called Option::unwrap on a None value"
      | some (c :: _) => .ok (.charV c, r₂.2)
  | .strS, st =>
    let r := readExactPad 1 st
    let dl₁ := decode_len_small (r.1.headD 0)
    let r₂ := readExactPad dl₁ r.2
    let dl₂ := decode_len_large r₂.1
    match readBytesBorrowed dl₂ r₂.2 with
    | .error e => .err e
    | .ok (bytes, st₃) =>
      if utf8Valid bytes then .ok (.strV bytes, st₃) else .err .utf8Error
  | .bytesS, st =>
    let r := readExactPad 1 st
    let dl₁ := decode_len_small (r.1.headD 0)
    let r₂ := readExactPad dl₁ r.2
    let dl₂ := decode_len_large r₂.1
    match readBytesBorrowed dl₂ r₂.2 with
    | .error e => .err e
    | .ok (bytes, st₃) => .ok (.bytesV bytes, st₃)
  | .unitS, st => .ok (.unitV, st)
  | .optionS s, st =>
    let r := readExactPad 1 st
    let b := r.1.headD 0
    if b = 0 then .ok (.noneV, r.2)
    else if b = 1 then
      match decodeValue s r.2 with
      | .ok (v, st₂) => .ok (.someV v, st₂)
      | .err e => .err e
      | .panicked m => .panicked m
    else .err (.invalidBytes .option r.1)
  | .snilS, st => .ok (.vnil, st)
  | .sconsS h t, st =>
    match decodeValue h st with
    | .ok (v, st₁) =>
      match decodeValue t st₁ with
      | .ok (chain, st₂) => .ok (.vcons v chain, st₂)
      | .err e => .err e
      | .panicked m => .panicked m
    | .err e => .err e
    | .panicked m => .panicked m
  | .tupleS fields, st =>
    match decodeValue fields st with
    | .ok (chain, st₁) => .ok (.tupleV chain, st₁)
    | .err e => .err e
    | .panicked m => .panicked m
  | .seqS elem, st =>
    let r := readExactPad 1 st
    let dl₁ := decode_len_small (r.1.headD 0)
    let r₂ := readExactPad dl₁ r.2
    let dl₂ := decode_len_large r₂.1
    match decodeElems (decodeValue elem) dl₂ r₂.2 with
    | .ok (chain, st₃) => .ok (.seqV chain, st₃)
    | .err e => .err e
    | .panicked m => .panicked m
  | .mapS key val, st =>
    let r := readExactPad 1 st
    let dl₁ := decode_len_small (r.1.headD 0)
    let r₂ := readExactPad dl₁ r.2
    let dl₂ := decode_len_large r₂.1
    match decodeElems (fun st' =>
      match decodeValue key st' with
      | .ok (kv, stₖ) =>
        match decodeValue val stₖ with
        | .ok (vv, stᵥ) => .ok (.pairV kv vv, stᵥ)
        | .err e => .err e
        | .panicked m => .panicked m
      | .err e => .err e
      | .panicked m => .panicked m) dl₂ r₂.2 with
    | .ok (chain, st₃) => .ok (.mapV chain, st₃)
    | .err e => .err e
    | .panicked m => .panicked m
  | .enumS name variants, st =>
    let r := readExactPad 1 st
    let idx := r.1.headD 0
    if shapeChainLen variants ≤ idx then
      .err (.custom "invalid value: variant index out of range")
    else decodeVariantSel name idx variants idx r.2
  | .vsUnitS, _ => .err (.custom "variant shape outside an enum")
  | .vsNewtypeS _, _ => .err (.custom "variant shape outside an enum")
  | .vsTupleS _, _ => .err (.custom "variant shape outside an enum")
  | .vsStructS _, _ => .err (.custom "variant shape outside an enum")

/-- Select the variant with 0-based position `i` in the variant chain and
decode its payload (the identifier resolution the derived `Deserialize`
implementation performs on the tag byte, followed by the
`VariantAccess` call for the declared variant shape). -/
def decodeVariantSel (name : String) (idx : Nat) :
    Shape → Nat → List Nat → DResult (Value × List Nat)
  | .sconsS v _, 0, st => decodeVariantPayload name idx v st
  | .sconsS _ rest, i + 1, st => decodeVariantSel name idx rest i st
  | _, _, _ => .err (.custom "invalid value: variant index out of range")

/-- Mirrors `VariantDecoder` from `src/decode.rs`: unit variants consume
nothing, newtype variants decode one payload value, tuple and struct
variants delegate to the tuple/struct decoding path with the declared
field count. -/
def decodeVariantPayload (name : String) (idx : Nat) :
    Shape → List Nat → DResult (Value × List Nat)
  | .vsUnitS, st => .ok (.enumUnitV name idx, st)
  | .vsNewtypeS s, st =>
    match decodeValue s st with
    | .ok (v, st₁) => .ok (.enumNewtypeV name idx v, st₁)
    | .err e => .err e
    | .panicked m => .panicked m
  | .vsTupleS fields, st =>
    match decodeValue fields st with
    | .ok (chain, st₁) => .ok (.enumTupleV name idx chain, st₁)
    | .err e => .err e
    | .panicked m => .panicked m
  | .vsStructS fields, st =>
    match decodeValue fields st with
    | .ok (chain, st₁) => .ok (.enumStructV name idx chain, st₁)
    | .err e => .err e
    | .panicked m => .panicked m
  | _, _ => .err (.custom "invalid variant shape")

end

/-- Decode one map entry: `MapDecoder::next_key_seed` followed by
`next_value_seed` (the key step decrements the remaining count, the
value step does not, giving one decrement per pair).  This function is
definitionally the element decoder applied in the `mapS` case of
`decodeValue`. -/
def decodeEntry (key val : Shape) (st : List Nat) :
    DResult (Value × List Nat) :=
  match decodeValue key st with
  | .ok (kv, stₖ) =>
    match decodeValue val stₖ with
    | .ok (vv, stᵥ) => .ok (.pairV kv vv, stᵥ)
    | .err e => .err e
    | .panicked m => .panicked m
  | .err e => .err e
  | .panicked m => .panicked m

/-- Mirrors the top-level `deserialize` entry point of `src/lib.rs`:
decode from a fresh `BytesReader` over the given bytes; trailing bytes
are not an error. -/
def deserialize (s : Shape) (bytes : List Nat) : DResult Value :=
  match decodeValue s bytes with
  | .ok (v, _) => .ok v
  | .err e => .err e
  | .panicked m => .panicked m

/-! ## Well-formed values

`wf s v` states that `v` is a value a Rust program can actually hand to
the encoder at shape `s`: integer fields are in the range of their Rust
type, chars are Unicode scalar values, strings are valid UTF-8, lengths
fit a `usize`, and enum values name an existing variant of matching
shape with an index below 256 (derived `Serialize` implementations only
produce declared variants; the 256 bound is what the encoder itself
checks).  These are exactly the values accepted by the encoder whose
bytes the round-trip claim quantifies over. -/

/-- The byte widths of the fixed-width Rust integer types. -/
def validWidth (w : Nat) : Bool :=
  w = 1 || w = 2 || w = 4 || w = 8 || w = 16

/-- Variant shape at 0-based position `i` of a variant chain. -/
def shapeAt : Shape → Nat → Option Shape
  | .sconsS h _, 0 => some h
  | .sconsS _ t, i + 1 => shapeAt t i
  | _, _ => none

mutual

/-- Well-formedness of a value at a shape (see the section comment). -/
def wf (s : Shape) : Value → Bool
  | .boolV _ =>
      match s with
      | .boolS => true
      | _ => false
  | .intV w' n =>
      match s with
      | .intS w =>
          w' = w && validWidth w
            && -(2 ^ (8 * w - 1) : Int) ≤ n && n < (2 ^ (8 * w - 1) : Int)
      | _ => false
  | .uintV w' n =>
      match s with
      | .uintS w => w' = w && validWidth w && n < 2 ^ (8 * w)
      | _ => false
  | .f32V bits =>
      match s with
      | .f32S => bits < 2 ^ 32
      | _ => false
  | .f64V bits =>
      match s with
      | .f64S => bits < 2 ^ 64
      | _ => false
  | .charV c =>
      match s with
      | .charS => validScalar c
      | _ => false
  | .strV bs =>
      match s with
      | .strS => utf8Valid bs && bs.length < 2 ^ 64
      | _ => false
  | .bytesV bs =>
      match s with
      | .bytesS => bs.all (· < 256) && bs.length < 2 ^ 64
      | _ => false
  | .unitV =>
      match s with
      | .unitS => true
      | _ => false
  | .noneV =>
      match s with
      | .optionS _ => true
      | _ => false
  | .someV v =>
      match s with
      | .optionS sp => wf sp v
      | _ => false
  | .vnil =>
      match s with
      | .snilS => true
      | _ => false
  | .vcons vh vt =>
      match s with
      | .sconsS sh stl => wf sh vh && wf stl vt
      | _ => false
  | .pairV _ _ => false
  | .tupleV vfields =>
      match s with
      | .tupleS fields => wf fields vfields
      | _ => false
  | .seqV elems =>
      match s with
      | .seqS sp => wfElems sp elems && chainLen elems < 2 ^ 64
      | _ => false
  | .mapV entries =>
      match s with
      | .mapS k v => wfEntries k v entries && chainLen entries < 2 ^ 64
      | _ => false
  | .enumUnitV name' idx =>
      match s with
      | .enumS name variants =>
          name' = name && idx < 256
            && (match shapeAt variants idx with
                | some .vsUnitS => true
                | _ => false)
      | _ => false
  | .enumNewtypeV name' idx v =>
      match s with
      | .enumS name variants =>
          name' = name && idx < 256
            && (match shapeAt variants idx with
                | some (.vsNewtypeS sp) => wf sp v
                | _ => false)
      | _ => false
  | .enumTupleV name' idx fieldsV =>
      match s with
      | .enumS name variants =>
          name' = name && idx < 256
            && (match shapeAt variants idx with
                | some (.vsTupleS fs) => wf fs fieldsV
                | _ => false)
      | _ => false
  | .enumStructV name' idx fieldsV =>
      match s with
      | .enumS name variants =>
          name' = name && idx < 256
            && (match shapeAt variants idx with
                | some (.vsStructS fs) => wf fs fieldsV
                | _ => false)
      | _ => false

/-- Well-formedness of a sequence element chain: every element
well-formed at the element shape. -/
def wfElems (s : Shape) : Value → Bool
  | .vnil => true
  | .vcons h t => wf s h && wfElems s t
  | _ => false

/-- Well-formedness of a map entry chain: every entry a `pairV` of a
well-formed key and value. -/
def wfEntries (k v : Shape) : Value → Bool
  | .vnil => true
  | .vcons (.pairV a b) t => wf k a && wf v b && wfEntries k v t
  | _ => false

end

/-- The bytes `v` encodes to (from an empty sink). -/
def encBytes (v : Value) : List Nat :=
  (encodeVal v []).1

/-- The encoder error `v` produces, if any. -/
def encErr (v : Value) : Option Err :=
  (encodeVal v []).2

/-! ## Encoder lemmas -/

/-- Sink-irrelevance: encoding appends the same bytes and produces the
same error whatever the sink already holds. -/
theorem encodeVal_sink (v : Value) (sink : List Nat) :
    encodeVal v sink = (sink ++ encBytes v, encErr v) := by
  induction v generalizing sink with
  | boolV b => simp [encodeVal, encBytes, encErr]
  | intV w n => simp [encodeVal, encBytes, encErr]
  | uintV w n => simp [encodeVal, encBytes, encErr]
  | f32V bits => simp [encodeVal, encBytes, encErr]
  | f64V bits => simp [encodeVal, encBytes, encErr]
  | charV c => simp [encodeVal, encBytes, encErr]
  | strV bs => simp [encodeVal, encBytes, encErr]
  | bytesV bs => simp [encodeVal, encBytes, encErr]
  | unitV => simp [encodeVal, encBytes, encErr]
  | noneV => simp [encodeVal, encBytes, encErr]
  | someV v ih =>
    show encodeVal v (sink ++ [1])
      = (sink ++ (encodeVal v ([] ++ [1])).1, (encodeVal v ([] ++ [1])).2)
    rw [ih (sink ++ [1]), ih ([] ++ [1])]
    simp
  | vnil => simp [encodeVal, encBytes, encErr]
  | vcons h t ihh iht =>
    have unf : ∀ sk, encodeVal (.vcons h t) sk
        = match encodeVal h sk with
          | (sk₂, none) => encodeVal t sk₂
          | (sk₂, some e) => (sk₂, some e) := fun _ => rfl
    rw [show encBytes (.vcons h t) = (encodeVal (.vcons h t) []).1 from rfl,
      show encErr (.vcons h t) = (encodeVal (.vcons h t) []).2 from rfl,
      unf sink, unf [], ihh sink, ihh []]
    cases he : encErr h with
    | none =>
      simp only []
      rw [iht (sink ++ encBytes h), iht ([] ++ encBytes h)]
      simp
    | some e => simp
  | pairV a b iha ihb =>
    have unf : ∀ sk, encodeVal (.pairV a b) sk
        = match encodeVal a sk with
          | (sk₂, none) => encodeVal b sk₂
          | (sk₂, some e) => (sk₂, some e) := fun _ => rfl
    rw [show encBytes (.pairV a b) = (encodeVal (.pairV a b) []).1 from rfl,
      show encErr (.pairV a b) = (encodeVal (.pairV a b) []).2 from rfl,
      unf sink, unf [], iha sink, iha []]
    cases he : encErr a with
    | none =>
      simp only []
      rw [ihb (sink ++ encBytes a), ihb ([] ++ encBytes a)]
      simp
    | some e => simp
  | tupleV fields ih =>
    show encodeVal fields sink
      = (sink ++ (encodeVal fields []).1, (encodeVal fields []).2)
    rw [ih sink, ih []]
    simp
  | seqV elems ih =>
    show encodeVal elems (sink ++ encode_len_large (chainLen elems))
      = (sink ++ (encodeVal elems ([] ++ encode_len_large (chainLen elems))).1,
        (encodeVal elems ([] ++ encode_len_large (chainLen elems))).2)
    rw [ih (sink ++ encode_len_large (chainLen elems)),
      ih ([] ++ encode_len_large (chainLen elems))]
    simp
  | mapV entries ih =>
    show encodeVal entries (sink ++ encode_len_large (chainLen entries))
      = (sink ++ (encodeVal entries ([] ++ encode_len_large (chainLen entries))).1,
        (encodeVal entries ([] ++ encode_len_large (chainLen entries))).2)
    rw [ih (sink ++ encode_len_large (chainLen entries)),
      ih ([] ++ encode_len_large (chainLen entries))]
    simp
  | enumUnitV name idx =>
    have unf : ∀ sk, encodeVal (.enumUnitV name idx) sk
        = if idx < 256 then (sk ++ [idx % 256], none)
          else (sk, some (.tooManyVariants name)) := fun _ => rfl
    rw [show encBytes (.enumUnitV name idx)
        = (encodeVal (.enumUnitV name idx) []).1 from rfl,
      show encErr (.enumUnitV name idx)
        = (encodeVal (.enumUnitV name idx) []).2 from rfl,
      unf sink, unf []]
    by_cases hidx : idx < 256 <;> simp [hidx]
  | enumNewtypeV name idx v ih =>
    have unf : ∀ sk, encodeVal (.enumNewtypeV name idx v) sk
        = if idx < 256 then encodeVal v (sk ++ [idx % 256])
          else (sk, some (.tooManyVariants name)) := fun _ => rfl
    rw [show encBytes (.enumNewtypeV name idx v)
        = (encodeVal (.enumNewtypeV name idx v) []).1 from rfl,
      show encErr (.enumNewtypeV name idx v)
        = (encodeVal (.enumNewtypeV name idx v) []).2 from rfl,
      unf sink, unf []]
    by_cases hidx : idx < 256
    · simp only [if_pos hidx]
      rw [ih (sink ++ [idx % 256]), ih ([] ++ [idx % 256])]
      simp
    · simp [hidx]
  | enumTupleV name idx fields ih =>
    have unf : ∀ sk, encodeVal (.enumTupleV name idx fields) sk
        = if idx < 256 then encodeVal fields (sk ++ [idx % 256])
          else (sk, some (.tooManyVariants name)) := fun _ => rfl
    rw [show encBytes (.enumTupleV name idx fields)
        = (encodeVal (.enumTupleV name idx fields) []).1 from rfl,
      show encErr (.enumTupleV name idx fields)
        = (encodeVal (.enumTupleV name idx fields) []).2 from rfl,
      unf sink, unf []]
    by_cases hidx : idx < 256
    · simp only [if_pos hidx]
      rw [ih (sink ++ [idx % 256]), ih ([] ++ [idx % 256])]
      simp
    · simp [hidx]
  | enumStructV name idx fields ih =>
    have unf : ∀ sk, encodeVal (.enumStructV name idx fields) sk
        = if idx < 256 then encodeVal fields (sk ++ [idx % 256])
          else (sk, some (.tooManyVariants name)) := fun _ => rfl
    rw [show encBytes (.enumStructV name idx fields)
        = (encodeVal (.enumStructV name idx fields) []).1 from rfl,
      show encErr (.enumStructV name idx fields)
        = (encodeVal (.enumStructV name idx fields) []).2 from rfl,
      unf sink, unf []]
    by_cases hidx : idx < 256
    · simp only [if_pos hidx]
      rw [ih (sink ++ [idx % 256]), ih ([] ++ [idx % 256])]
      simp
    · simp [hidx]

/-! ### Per-constructor byte computations -/

theorem encBytes_some (v : Value) : encBytes (.someV v) = 1 :: encBytes v := by
  show (encodeVal v ([] ++ [1])).1 = _
  rw [encodeVal_sink]
  simp

theorem encErr_some (v : Value) : encErr (.someV v) = encErr v := by
  show (encodeVal v ([] ++ [1])).2 = _
  rw [encodeVal_sink]

theorem encBytes_vcons (h t : Value) (he : encErr h = none) :
    encBytes (.vcons h t) = encBytes h ++ encBytes t := by
  show (match encodeVal h [] with
    | (sk₂, none) => encodeVal t sk₂
    | (sk₂, some e) => (sk₂, some e)).1 = _
  rw [encodeVal_sink, he]
  simp only []
  rw [encodeVal_sink]
  simp

theorem encErr_vcons (h t : Value) (he : encErr h = none) :
    encErr (.vcons h t) = encErr t := by
  show (match encodeVal h [] with
    | (sk₂, none) => encodeVal t sk₂
    | (sk₂, some e) => (sk₂, some e)).2 = _
  rw [encodeVal_sink, he]
  simp only []
  rw [encodeVal_sink]

theorem encBytes_pair (a b : Value) (he : encErr a = none) :
    encBytes (.pairV a b) = encBytes a ++ encBytes b := by
  show (match encodeVal a [] with
    | (sk₂, none) => encodeVal b sk₂
    | (sk₂, some e) => (sk₂, some e)).1 = _
  rw [encodeVal_sink, he]
  simp only []
  rw [encodeVal_sink]
  simp

theorem encErr_pair (a b : Value) (he : encErr a = none) :
    encErr (.pairV a b) = encErr b := by
  show (match encodeVal a [] with
    | (sk₂, none) => encodeVal b sk₂
    | (sk₂, some e) => (sk₂, some e)).2 = _
  rw [encodeVal_sink, he]
  simp only []
  rw [encodeVal_sink]

theorem encBytes_tuple (fields : Value) :
    encBytes (.tupleV fields) = encBytes fields := rfl

theorem encErr_tuple (fields : Value) :
    encErr (.tupleV fields) = encErr fields := rfl

theorem encBytes_seq (elems : Value) :
    encBytes (.seqV elems)
      = encode_len_large (chainLen elems) ++ encBytes elems := by
  show (encodeVal elems ([] ++ encode_len_large (chainLen elems))).1 = _
  rw [encodeVal_sink]
  simp

theorem encErr_seq (elems : Value) :
    encErr (.seqV elems) = encErr elems := by
  show (encodeVal elems ([] ++ encode_len_large (chainLen elems))).2 = _
  rw [encodeVal_sink]

theorem encBytes_map (entries : Value) :
    encBytes (.mapV entries)
      = encode_len_large (chainLen entries) ++ encBytes entries := by
  show (encodeVal entries ([] ++ encode_len_large (chainLen entries))).1 = _
  rw [encodeVal_sink]
  simp

theorem encErr_map (entries : Value) :
    encErr (.mapV entries) = encErr entries := by
  show (encodeVal entries ([] ++ encode_len_large (chainLen entries))).2 = _
  rw [encodeVal_sink]

theorem encBytes_enumUnit (name : String) (idx : Nat) (h : idx < 256) :
    encBytes (.enumUnitV name idx) = [idx] ∧ encErr (.enumUnitV name idx) = none := by
  have hmod : idx % 256 = idx := Nat.mod_eq_of_lt h
  constructor
  · show (if idx < 256 then (([] : List Nat) ++ [idx % 256], (none : Option Err))
      else ([], some (.tooManyVariants name))).1 = _
    rw [if_pos h, hmod]
    simp
  · show (if idx < 256 then (([] : List Nat) ++ [idx % 256], (none : Option Err))
      else ([], some (.tooManyVariants name))).2 = _
    rw [if_pos h]

theorem encBytes_enumNewtype (name : String) (idx : Nat) (v : Value)
    (h : idx < 256) :
    encBytes (.enumNewtypeV name idx v) = idx :: encBytes v
    ∧ encErr (.enumNewtypeV name idx v) = encErr v := by
  have hmod : idx % 256 = idx := Nat.mod_eq_of_lt h
  have unf : encodeVal (.enumNewtypeV name idx v) []
      = if idx < 256 then encodeVal v ([] ++ [idx % 256])
        else ([], some (.tooManyVariants name)) := rfl
  constructor
  · show (encodeVal (.enumNewtypeV name idx v) []).1 = _
    rw [unf, if_pos h, encodeVal_sink, hmod]
    simp
  · show (encodeVal (.enumNewtypeV name idx v) []).2 = _
    rw [unf, if_pos h, encodeVal_sink]

theorem encBytes_enumTuple (name : String) (idx : Nat) (fields : Value)
    (h : idx < 256) :
    encBytes (.enumTupleV name idx fields) = idx :: encBytes fields
    ∧ encErr (.enumTupleV name idx fields) = encErr fields := by
  have hmod : idx % 256 = idx := Nat.mod_eq_of_lt h
  have unf : encodeVal (.enumTupleV name idx fields) []
      = if idx < 256 then encodeVal fields ([] ++ [idx % 256])
        else ([], some (.tooManyVariants name)) := rfl
  constructor
  · show (encodeVal (.enumTupleV name idx fields) []).1 = _
    rw [unf, if_pos h, encodeVal_sink, hmod]
    simp
  · show (encodeVal (.enumTupleV name idx fields) []).2 = _
    rw [unf, if_pos h, encodeVal_sink]

theorem encBytes_enumStruct (name : String) (idx : Nat) (fields : Value)
    (h : idx < 256) :
    encBytes (.enumStructV name idx fields) = idx :: encBytes fields
    ∧ encErr (.enumStructV name idx fields) = encErr fields := by
  have hmod : idx % 256 = idx := Nat.mod_eq_of_lt h
  have unf : encodeVal (.enumStructV name idx fields) []
      = if idx < 256 then encodeVal fields ([] ++ [idx % 256])
        else ([], some (.tooManyVariants name)) := rfl
  constructor
  · show (encodeVal (.enumStructV name idx fields) []).1 = _
    rw [unf, if_pos h, encodeVal_sink, hmod]
    simp
  · show (encodeVal (.enumStructV name idx fields) []).2 = _
    rw [unf, if_pos h, encodeVal_sink]

/-! ## C8: the variant tag bound -/

/-- **C8.**  Encoding a tagged-union variant whose 0-based index is below
256 writes the index as a single tag byte (then the payload, for
newtype/tuple/struct variants); an index of 256 or more fails with
`TooManyVariants` naming the union for all four variant kinds, and the
check precedes any write: the sink is returned unchanged. -/
theorem variant_tag_bound (name : String) (idx : Nat) (v fields : Value)
    (sink : List Nat) :
    (idx < 256 →
      encodeVal (.enumUnitV name idx) sink = (sink ++ [idx], none)
      ∧ encodeVal (.enumNewtypeV name idx v) sink = encodeVal v (sink ++ [idx])
      ∧ encodeVal (.enumTupleV name idx fields) sink
        = encodeVal fields (sink ++ [idx])
      ∧ encodeVal (.enumStructV name idx fields) sink
        = encodeVal fields (sink ++ [idx]))
    ∧ (256 ≤ idx →
      encodeVal (.enumUnitV name idx) sink
        = (sink, some (.tooManyVariants name))
      ∧ encodeVal (.enumNewtypeV name idx v) sink
        = (sink, some (.tooManyVariants name))
      ∧ encodeVal (.enumTupleV name idx fields) sink
        = (sink, some (.tooManyVariants name))
      ∧ encodeVal (.enumStructV name idx fields) sink
        = (sink, some (.tooManyVariants name))) := by
  constructor
  · intro h
    have hmod : idx % 256 = idx := Nat.mod_eq_of_lt h
    refine ⟨?_, ?_, ?_, ?_⟩ <;> simp [encodeVal, h, hmod]
  · intro h
    have hne : ¬ idx < 256 := by omega
    refine ⟨?_, ?_, ?_, ?_⟩ <;> simp [encodeVal, hne]

/-- Witness for C8: variant index 255 succeeds with tag byte 255; index
256 fails; the 300th variant (index 299) of a tuple-shaped variant fails
with the union name. -/
theorem variant_tag_bound_witness :
    encodeVal (.enumUnitV "MyEnum" 255) [] = ([255], none)
    ∧ encodeVal (.enumUnitV "MyEnum" 256) []
      = ([], some (.tooManyVariants "MyEnum"))
    ∧ encodeVal (.enumTupleV "MyEnum" 299 .vnil) []
      = ([], some (.tooManyVariants "MyEnum")) :=
  ⟨by
      have := ((variant_tag_bound "MyEnum" 255 .unitV .vnil []).1
        (by norm_num)).1
      simpa using this,
   ((variant_tag_bound "MyEnum" 256 .unitV .vnil []).2 (by norm_num)).1,
   ((variant_tag_bound "MyEnum" 299 .unitV .vnil []).2 (by norm_num)).2.2.1⟩

/-! ## C9: unknown lengths rejected before writing -/

/-- **C9.**  Starting to encode a sequence or map of unknown length
fails immediately with the dedicated error and the sink is returned
unchanged (nothing was written); with a known length, the large-length
framing is written at the start, before any element. -/
theorem unknown_len_rejected_before_write (sink : List Nat) (l : Nat)
    (elems entries : Value) :
    serializeSeqStart none sink = (sink, some .unknownSeqLengthNotAllowed)
    ∧ serializeMapStart none sink = (sink, some .unknownMapLengthNotAllowed)
    ∧ serializeSeqStart (some l) sink = (sink ++ encode_len_large l, none)
    ∧ serializeMapStart (some l) sink = (sink ++ encode_len_large l, none)
    ∧ encodeVal (.seqV elems) sink
      = encodeVal elems (sink ++ encode_len_large (chainLen elems))
    ∧ encodeVal (.mapV entries) sink
      = encodeVal entries (sink ++ encode_len_large (chainLen entries)) :=
  ⟨rfl, rfl, rfl, rfl, rfl, rfl⟩

/-! ## C10: the in-memory serialize path only fails at encoder level -/

/-- Every error the encoder can produce is encoder-level. -/
theorem encErr_encoder_level :
    ∀ (v : Value) (e : Err), encErr v = some e → encoderLevelErr e = true := by
  intro v
  induction v with
  | boolV b => intro e he; cases he
  | intV w n => intro e he; cases he
  | uintV w n => intro e he; cases he
  | f32V bits => intro e he; cases he
  | f64V bits => intro e he; cases he
  | charV c => intro e he; cases he
  | strV bs => intro e he; cases he
  | bytesV bs => intro e he; cases he
  | unitV => intro e he; cases he
  | noneV => intro e he; cases he
  | someV v ih => intro e he; rw [encErr_some] at he; exact ih e he
  | vnil => intro e he; cases he
  | vcons h t ihh iht =>
    intro e he
    cases hh : encErr h with
    | none => rw [encErr_vcons h t hh] at he; exact iht e he
    | some e' =>
      have : encErr (.vcons h t) = some e' := by
        show (match encodeVal h [] with
          | (sk₂, none) => encodeVal t sk₂
          | (sk₂, some e) => (sk₂, some e)).2 = _
        rw [encodeVal_sink, hh]
      rw [this] at he
      cases he
      exact ihh _ hh
  | pairV a b iha ihb =>
    intro e he
    cases ha : encErr a with
    | none => rw [encErr_pair a b ha] at he; exact ihb e he
    | some e' =>
      have : encErr (.pairV a b) = some e' := by
        show (match encodeVal a [] with
          | (sk₂, none) => encodeVal b sk₂
          | (sk₂, some e) => (sk₂, some e)).2 = _
        rw [encodeVal_sink, ha]
      rw [this] at he
      cases he
      exact iha _ ha
  | tupleV fields ih => intro e he; rw [encErr_tuple] at he; exact ih e he
  | seqV elems ih => intro e he; rw [encErr_seq] at he; exact ih e he
  | mapV entries ih => intro e he; rw [encErr_map] at he; exact ih e he
  | enumUnitV name idx =>
    intro e he
    by_cases hidx : idx < 256
    · rw [(encBytes_enumUnit name idx hidx).2] at he; cases he
    · have : encErr (.enumUnitV name idx) = some (.tooManyVariants name) := by
        show (if idx < 256 then (([] : List Nat) ++ [idx % 256], (none : Option Err))
          else ([], some (.tooManyVariants name))).2 = _
        rw [if_neg hidx]
      rw [this] at he
      cases he
      rfl
  | enumNewtypeV name idx v ih =>
    intro e he
    by_cases hidx : idx < 256
    · rw [(encBytes_enumNewtype name idx v hidx).2] at he; exact ih e he
    · have : encErr (.enumNewtypeV name idx v) = some (.tooManyVariants name) := by
        show (if idx < 256 then encodeVal v ([] ++ [idx % 256])
          else ([], some (.tooManyVariants name))).2 = _
        rw [if_neg hidx]
      rw [this] at he
      cases he
      rfl
  | enumTupleV name idx fields ih =>
    intro e he
    by_cases hidx : idx < 256
    · rw [(encBytes_enumTuple name idx fields hidx).2] at he; exact ih e he
    · have : encErr (.enumTupleV name idx fields) = some (.tooManyVariants name) := by
        show (if idx < 256 then encodeVal fields ([] ++ [idx % 256])
          else ([], some (.tooManyVariants name))).2 = _
        rw [if_neg hidx]
      rw [this] at he
      cases he
      rfl
  | enumStructV name idx fields ih =>
    intro e he
    by_cases hidx : idx < 256
    · rw [(encBytes_enumStruct name idx fields hidx).2] at he; exact ih e he
    · have : encErr (.enumStructV name idx fields) = some (.tooManyVariants name) := by
        show (if idx < 256 then encodeVal fields ([] ++ [idx % 256])
          else ([], some (.tooManyVariants name))).2 = _
        rw [if_neg hidx]
      rw [this] at he
      cases he
      rfl

/-- **C10.**  The in-memory serialize path cannot fail with an I/O or
end-of-input error: `BytesWriter::write_all` always succeeds, and any
failure of encoding any value into any sink is an encoder-level error
(unknown length, too many variants, field skipping, custom). -/
theorem serialize_errors_encoder_level :
    (∀ w buf, (bytesWriterWriteAll w buf).2 = none)
    ∧ (∀ (v : Value) (sink : List Nat) (e : Err),
        (encodeVal v sink).2 = some e → encoderLevelErr e = true) := by
  constructor
  · intro w buf; rfl
  · intro v sink e he
    rw [encodeVal_sink] at he
    exact encErr_encoder_level v e he

/-- Witness for C10: the writer accepts a concrete buffer, and the one
failure a concrete over-wide enum produces is the encoder-level
`TooManyVariants`. -/
theorem serialize_errors_encoder_level_witness :
    (bytesWriterWriteAll [1] [2, 3]).2 = none
    ∧ encoderLevelErr (.tooManyVariants "MyUnion") = true :=
  ⟨serialize_errors_encoder_level.1 [1] [2, 3],
   serialize_errors_encoder_level.2 (.enumUnitV "MyUnion" 300) [] _ rfl⟩

/-! ## C3: the end-to-end record example -/

/-- **C3.**  The record with fields `flag = true`, `code = -1` (8-bit)
and `label = "hi"` in declaration order serializes to exactly
`[1, 255, 1, 2, 104, 105]`, and those bytes deserialize, against the
same record shape, back to the identical record. -/
theorem record_example_bytes :
    serialize (.tupleV (.vcons (.boolV true) (.vcons (.intV 1 (-1))
      (.vcons (.strV [104, 105]) .vnil))))
      = .ok [1, 255, 1, 2, 104, 105]
    ∧ deserialize (.tupleS (.sconsS .boolS (.sconsS (.intS 1)
        (.sconsS .strS .snilS)))) [1, 255, 1, 2, 104, 105]
      = .ok (.tupleV (.vcons (.boolV true) (.vcons (.intV 1 (-1))
        (.vcons (.strV [104, 105]) .vnil)))) :=
  ⟨rfl, rfl⟩

/-! ## C4: the decoder panics on malformed char widths -/

/-- **C4 (failing inputs).**  `deserialize_char` panics instead of
returning a typed error on malformed width bytes: width `0` reaches
`.chars().take(1).next().unwrap()` on an empty string, and width `5`
makes the slice index `4 - decoded_len` underflow.  Both evaluations
are shown on the model, which marks exactly these two source positions
as panics. -/
theorem char_width_panics :
    deserialize .charS [0] = .panicked "called Option::unwrap on a None value"
    ∧ deserialize .charS [5, 104, 104, 104, 104, 104]
      = .panicked "attempt to subtract with overflow" :=
  ⟨rfl, rfl⟩

/-! ## Reader lemmas -/

theorem readExactPad_cons (b : Nat) (rest : List Nat) :
    readExactPad 1 (b :: rest) = ([b], rest) := by
  simp [readExactPad]

theorem readExactPad_exact (bs rest : List Nat) :
    readExactPad bs.length (bs ++ rest) = (bs, rest) := by
  simp [readExactPad, List.take_left, List.drop_left]

theorem readBytesBorrowed_exact (bs rest : List Nat) :
    readBytesBorrowed bs.length (bs ++ rest) = .ok (bs, rest) := by
  simp [readBytesBorrowed, List.take_left, List.drop_left]

theorem readBytesBorrowed_short (n : Nat) (st : List Nat)
    (h : st.length < n) : readBytesBorrowed n st = .error .unexpectedEof := by
  simp only [readBytesBorrowed]
  rw [if_neg (by omega)]

theorem streamReadExact_exact (bs rest : List Nat) :
    streamReadExact bs.length (bs ++ rest) = .ok (bs, rest) := by
  simp [streamReadExact, List.take_left, List.drop_left]

theorem streamReadExact_short (n : Nat) (src : List Nat)
    (h : src.length < n) : streamReadExact n src = .error .ioError := by
  simp only [streamReadExact]
  rw [if_neg (by omega)]

/-- With a `usize` value, the tier-1 byte of `encode_len_large` is the
untruncated digit count. -/
theorem encode_len_large_head (n : Nat) (hn : n < 2 ^ 64) :
    encode_len_large n = (lenDigits n).length :: (lenDigits n).reverse := by
  have h8 := lenDigits_length_le_eight n hn
  simp only [encode_len_large]
  rw [Nat.mod_eq_of_lt (by omega)]

/-! ## C5: the two `read_exact` implementations

The Byte-Source contract claims both implementations fill the
destination completely or fail.  The stream-backed one does; the
slice-backed `BytesReader` does not: `buf.write(self.bytes)` copies
whatever is available and returns `Ok` regardless. -/

/-- **C5 (counterexample).**  `BytesReader::read_exact` silently accepts
a short read: with an empty reader and a 1-byte destination holding the
stale byte `7`, the call succeeds and the destination still holds `7`
(no byte of input was available); with reader `[9]` and a 2-byte
destination `[7, 7]`, the call succeeds having overwritten only the
first byte. -/
theorem bytesReader_read_exact_short_accepted :
    bytesReaderReadExact [7] [] = ([7], [])
    ∧ bytesReaderReadExact [7, 7] [9] = ([9, 7], []) :=
  ⟨rfl, rfl⟩

/-- **C5 (amended).**  The stream-backed `read_exact` fills the
destination completely or fails with a (wrapped) I/O error; the
slice-backed `BytesReader::read_exact` always succeeds, preserves the
destination length, fills it completely only when enough bytes remain,
and otherwise copies the remaining bytes and leaves the destination
tail unchanged; shortage on the slice-backed source is detected only by
the borrowed-view `read_bytes` path, which fails with
`UnexpectedEof`. -/
theorem read_exact_amended (n : Nat) (src buf st : List Nat) :
    (src.length < n → streamReadExact n src = .error .ioError)
    ∧ (n ≤ src.length →
        streamReadExact n src = .ok (src.take n, src.drop n)
        ∧ (src.take n).length = n)
    ∧ (bytesReaderReadExact buf st).1.length = buf.length
    ∧ (buf.length ≤ st.length →
        (bytesReaderReadExact buf st).1 = st.take buf.length)
    ∧ (st.length < buf.length →
        (bytesReaderReadExact buf st).1 = st ++ buf.drop st.length)
    ∧ (st.length < n → readBytesBorrowed n st = .error .unexpectedEof) := by
  refine ⟨?_, ?_, ?_, ?_, ?_, ?_⟩
  · exact streamReadExact_short n src
  · intro h
    constructor
    · simp only [streamReadExact]
      rw [if_pos h]
    · simp [List.length_take]
      omega
  · simp only [bytesReaderReadExact]
    simp [List.length_take, List.length_drop]
  · intro h
    simp only [bytesReaderReadExact]
    rw [min_eq_left h]
    have : buf.drop buf.length = [] := by simp
    rw [this, List.append_nil]
  · intro h
    simp only [bytesReaderReadExact]
    rw [min_eq_right (by omega)]
    simp
  · exact readBytesBorrowed_short n st

/-- Witness for C5 (amended) at concrete inputs: a stream of two bytes
read exactly, the slice-backed reader on a short source, and the
borrowed-view failure. -/
theorem read_exact_amended_witness :
    streamReadExact 3 [4, 5] = .error .ioError
    ∧ streamReadExact 2 [4, 5] = .ok ([4, 5], [])
    ∧ (bytesReaderReadExact [7, 7] [9]).1.length = 2
    ∧ (bytesReaderReadExact [7, 7] [9]).1 = [9] ++ [7, 7].drop 1
    ∧ readBytesBorrowed 1 [] = .error .unexpectedEof := by
  refine ⟨?_, ?_, ?_, ?_, ?_⟩
  · exact (read_exact_amended 3 [4, 5] [] []).1 (by norm_num)
  · have := ((read_exact_amended 2 [4, 5] [] []).2.1 (by norm_num)).1
    simpa using this
  · exact (read_exact_amended 0 [] [7, 7] [9]).2.2.1
  · exact (read_exact_amended 0 [] [7, 7] [9]).2.2.2.2.1 (by norm_num)
  · exact (read_exact_amended 1 [] [] []).2.2.2.2.2 (by norm_num)

/-! ## C6: borrowed strings, stream vs slice -/

/-- Mirrors `visit_str` of the blanket `Read` implementation over a
stream (`src/read.rs`): read the framed bytes by copy, validate UTF-8,
and hand an owned view to the visitor — composed with the visitor of a
borrowed `&str` target, which accepts only `visit_borrowed_str` and
rejects `visit_str` with serde's invalid-type error (surfacing through
`Error::custom`).  The call can therefore never succeed. -/
def streamVisitStrBorrowed (src : List Nat) : Except Err (List Nat) :=
  match streamReadExact 1 src with
  | .error e => .error e
  | .ok (len₁, s₁) =>
    match streamReadExact (decode_len_small (len₁.headD 0)) s₁ with
    | .error e => .error e
    | .ok (len₂, s₂) =>
      match streamReadExact (decode_len_large len₂) s₂ with
      | .error e => .error e
      | .ok (bytes, _) =>
        if utf8Valid bytes then
          .error (.custom "invalid type: string, expected a borrowed string")
        else .error .utf8Error

/-- Decoding a framed string payload through the slice-backed borrowed
path: the length header parses back to `bs.length` and the payload is
the exact corresponding segment of the input. -/
theorem decode_str_frame (bs rest : List Nat) (hlen : bs.length < 2 ^ 64) :
    decodeValue .strS (encode_len_large bs.length ++ bs ++ rest)
      = if utf8Valid bs then .ok (.strV bs, rest) else .err .utf8Error := by
  rw [encode_len_large_head bs.length hlen]
  have hra : ((lenDigits bs.length).length :: (lenDigits bs.length).reverse)
      ++ bs ++ rest
      = (lenDigits bs.length).length
        :: ((lenDigits bs.length).reverse ++ (bs ++ rest)) := by
    simp
  rw [hra]
  simp only [decodeValue, readExactPad_cons, List.headD_cons,
    decode_len_small]
  rw [show (lenDigits bs.length).length = (lenDigits bs.length).reverse.length
      by simp]
  rw [readExactPad_exact]
  simp only [decode_len_large_reverse, leVal_lenDigits]
  rw [readBytesBorrowed_exact]

/-- Decoding a framed string whose payload is shorter than the length
header demands fails with `UnexpectedEof` on the borrowed path. -/
theorem decode_str_eof (n : Nat) (short : List Nat) (hn : n < 2 ^ 64)
    (hshort : short.length < n) :
    decodeValue .strS (encode_len_large n ++ short) = .err .unexpectedEof := by
  rw [encode_len_large_head n hn]
  have hra : ((lenDigits n).length :: (lenDigits n).reverse) ++ short
      = (lenDigits n).length :: ((lenDigits n).reverse ++ short) := by
    simp
  rw [hra]
  simp only [decodeValue, readExactPad_cons, List.headD_cons,
    decode_len_small]
  rw [show (lenDigits n).length = (lenDigits n).reverse.length by simp]
  rw [readExactPad_exact]
  simp only [decode_len_large_reverse, leVal_lenDigits]
  rw [readBytesBorrowed_short n short hshort]

/-- **C6.**  Decoding a borrowed string from a stream-backed source
fails with the descriptive invalid-type error (a generic decode error,
not a panic); the same framed bytes decoded from a slice-backed source
succeed, and the returned view is exactly the corresponding sub-slice
of the input buffer (in the source, the sub-slice produced by
`split_at`, aliasing the buffer); and the slice-backed borrowed-view
extraction fails with `UnexpectedEof` when fewer bytes remain than the
length header demands. -/
theorem borrowed_str_paths (bs short rest : List Nat) (n : Nat)
    (hval : utf8Valid bs = true) (hlen : bs.length < 2 ^ 64)
    (hn : n < 2 ^ 64) (hshort : short.length < n) :
    streamVisitStrBorrowed (encode_len_large bs.length ++ bs ++ rest)
      = .error (.custom "invalid type: string, expected a borrowed string")
    ∧ decodeValue .strS (encode_len_large bs.length ++ bs ++ rest)
      = .ok (.strV bs, rest)
    ∧ decodeValue .strS (encode_len_large n ++ short)
      = .err .unexpectedEof := by
  refine ⟨?_, ?_, decode_str_eof n short hn hshort⟩
  · rw [encode_len_large_head bs.length hlen]
    have hra : ((lenDigits bs.length).length :: (lenDigits bs.length).reverse)
        ++ bs ++ rest
        = [(lenDigits bs.length).length]
          ++ ((lenDigits bs.length).reverse ++ (bs ++ rest)) := by
      simp
    rw [hra]
    simp only [streamVisitStrBorrowed]
    rw [show (1 : Nat)
        = ([(lenDigits bs.length).length] : List Nat).length by simp]
    rw [streamReadExact_exact]
    simp only [List.headD_cons, decode_len_small]
    rw [show (lenDigits bs.length).length
        = (lenDigits bs.length).reverse.length by simp]
    rw [streamReadExact_exact]
    simp only [decode_len_large_reverse, leVal_lenDigits]
    rw [show bs.length = bs.length from rfl]
    rw [streamReadExact_exact]
    simp [hval]
  · rw [decode_str_frame bs rest hlen, if_pos hval]

/-- Witness for C6 at the payload `"hi"` (`[104, 105]`, valid UTF-8)
and a framed length of 1 with no payload byte remaining. -/
theorem borrowed_str_paths_witness :
    streamVisitStrBorrowed [1, 2, 104, 105]
      = .error (.custom "invalid type: string, expected a borrowed string")
    ∧ decodeValue .strS [1, 2, 104, 105] = .ok (.strV [104, 105], [])
    ∧ decodeValue .strS [1, 1] = .err .unexpectedEof := by
  have h := borrowed_str_paths [104, 105] [] [] 1 (by decide)
    (by norm_num) (by norm_num) (by norm_num)
  exact h

/-! ## C7: boolean and optional discriminants -/

/-- **C7.**  Decoding a boolean consumes exactly one byte: `0` and `1`
decode to `false`/`true`, every other byte value fails with an
invalid-bytes error naming the boolean type and carrying the offending
byte.  Decoding an optional consumes one discriminant byte: `0` is
absent, `1` is present (recursing into the payload), every other byte
value fails with an invalid-bytes error naming the optional type. -/
theorem discriminant_errors (b : Nat) (h2 : 2 ≤ b) (h256 : b < 256)
    (s : Shape) (rest : List Nat) :
    decodeValue .boolS (0 :: rest) = .ok (.boolV false, rest)
    ∧ decodeValue .boolS (1 :: rest) = .ok (.boolV true, rest)
    ∧ decodeValue .boolS (b :: rest) = .err (.invalidBytes .bool [b])
    ∧ decodeValue (.optionS s) (0 :: rest) = .ok (.noneV, rest)
    ∧ decodeValue (.optionS s) (1 :: rest)
      = (match decodeValue s rest with
        | .ok (v, st₂) => .ok (.someV v, st₂)
        | .err e => .err e
        | .panicked m => .panicked m)
    ∧ decodeValue (.optionS s) (b :: rest)
      = .err (.invalidBytes .option [b]) := by
  refine ⟨?_, ?_, ?_, ?_, ?_, ?_⟩
  · simp [decodeValue, readExactPad_cons]
  · simp [decodeValue, readExactPad_cons]
  · simp only [decodeValue, readExactPad_cons, List.headD_cons]
    rw [if_neg (by omega), if_neg (by omega)]
  · simp [decodeValue, readExactPad_cons]
  · simp only [decodeValue, readExactPad_cons, List.headD_cons]
    norm_num
  · simp only [decodeValue, readExactPad_cons, List.headD_cons]
    rw [if_neg (by omega), if_neg (by omega)]

/-- Witness for C7 at the spec's concrete inputs: boolean byte `2` and
optional byte `5`, payload shape `bool`, empty remainder. -/
theorem discriminant_errors_witness :
    decodeValue .boolS [2] = .err (.invalidBytes .bool [2])
    ∧ decodeValue (.optionS .boolS) [5]
      = .err (.invalidBytes .option [5]) :=
  ⟨(discriminant_errors 2 (by norm_num) (by norm_num) .boolS []).2.2.1,
   (discriminant_errors 5 (by norm_num) (by norm_num) .boolS []).2.2.2.2.2⟩

/-! ## Fixed-width integer lemmas -/

theorem beBytes_length (w n : Nat) : (beBytes w n).length = w := by
  induction w generalizing n with
  | zero => rfl
  | succ w ih => simp [beBytes, ih]

theorem fromBeBytes_append (l : List Nat) (b : Nat) :
    fromBeBytes (l ++ [b]) = fromBeBytes l * 256 + b := by
  simp [fromBeBytes, List.foldl_append]

theorem fromBeBytes_beBytes (w n : Nat) :
    fromBeBytes (beBytes w n) = n % 256 ^ w := by
  induction w generalizing n with
  | zero => simp [beBytes, fromBeBytes, Nat.mod_one]
  | succ w ih =>
    rw [beBytes, fromBeBytes_append, ih]
    have hsplit : n % (256 * 256 ^ w) = n % 256 + 256 * (n / 256 % 256 ^ w) :=
      Nat.mod_mul
    rw [show (256 : Nat) ^ (w + 1) = 256 * 256 ^ w from by ring]
    omega

theorem pow_two_mul_eight (w : Nat) : (2 : Nat) ^ (8 * w) = 256 ^ w := by
  rw [pow_mul]
  norm_num

theorem decode_uint_frame (w m : Nat) (rest : List Nat) :
    decodeValue (.uintS w) (beBytes w m ++ rest)
      = .ok (.uintV w (m % 256 ^ w), rest) := by
  have hre := readExactPad_exact (beBytes w m) rest
  rw [beBytes_length] at hre
  simp only [decodeValue]
  rw [hre, fromBeBytes_beBytes]

theorem decode_f32_frame (m : Nat) (rest : List Nat) :
    decodeValue .f32S (beBytes 4 m ++ rest)
      = .ok (.f32V (m % 256 ^ 4), rest) := by
  have hre := readExactPad_exact (beBytes 4 m) rest
  rw [beBytes_length] at hre
  simp only [decodeValue]
  rw [hre, fromBeBytes_beBytes]

theorem decode_f64_frame (m : Nat) (rest : List Nat) :
    decodeValue .f64S (beBytes 8 m ++ rest)
      = .ok (.f64V (m % 256 ^ 8), rest) := by
  have hre := readExactPad_exact (beBytes 8 m) rest
  rw [beBytes_length] at hre
  simp only [decodeValue]
  rw [hre, fromBeBytes_beBytes]

/-- Round trip of signed values through the two's-complement byte
image: encoding writes the bytes of `n mod 2 ^ (8w)` and
`toSigned` recovers `n` for any `n` in the range of the `w`-byte signed
type. -/
theorem toSigned_emod (w : Nat) (hw : 1 ≤ w) (n : Int)
    (hlo : -(2 ^ (8 * w - 1) : Int) ≤ n)
    (hhi : n < (2 ^ (8 * w - 1) : Int)) :
    toSigned w ((n % (2 ^ (8 * w) : Int)).toNat % 256 ^ w) = n := by
  have hsplit : 8 * w = (8 * w - 1) + 1 := by omega
  have hpow : (2 : Int) ^ (8 * w) = 2 * 2 ^ (8 * w - 1) := by
    have h := pow_succ (2 : Int) (8 * w - 1)
    rw [← hsplit] at h
    omega
  have hKpos : (0 : Int) < 2 ^ (8 * w - 1) := by positivity
  have h2pos : (0 : Int) < 2 ^ (8 * w) := by positivity
  have hnat : ((256 ^ w : Nat) : Int) = (2 : Int) ^ (8 * w) := by
    push_cast
    rw [show (256 : Int) = 2 ^ 8 from by norm_num, ← pow_mul]
  have hemod_nonneg : 0 ≤ n % (2 ^ (8 * w) : Int) :=
    Int.emod_nonneg n (by positivity)
  have hemod_lt : n % (2 ^ (8 * w) : Int) < 2 ^ (8 * w) :=
    Int.emod_lt_of_pos n h2pos
  have hm : ((n % (2 ^ (8 * w) : Int)).toNat : Int) = n % (2 ^ (8 * w) : Int) :=
    Int.toNat_of_nonneg hemod_nonneg
  have hmlt : (n % (2 ^ (8 * w) : Int)).toNat < 256 ^ w := by
    have h1 : ((n % (2 ^ (8 * w) : Int)).toNat : Int) < ((256 ^ w : Nat) : Int) := by
      rw [hm, hnat]
      exact hemod_lt
    exact_mod_cast h1
  rw [Nat.mod_eq_of_lt hmlt]
  have hval : n % (2 ^ (8 * w) : Int)
      = if 0 ≤ n then n else n + 2 ^ (8 * w) := by
    by_cases hn : 0 ≤ n
    · rw [if_pos hn]
      exact Int.emod_eq_of_lt hn (by omega)
    · rw [if_neg hn]
      have heq : (n + 2 ^ (8 * w)) % (2 ^ (8 * w) : Int) = n % 2 ^ (8 * w) := by
        conv_lhs => rw [show n + 2 ^ (8 * w) = n + 2 ^ (8 * w) * 1 from by ring]
        exact Int.add_mul_emod_self_left n (2 ^ (8 * w)) 1
      rw [← heq]
      exact Int.emod_eq_of_lt (by omega) (by omega)
  unfold toSigned
  have hKnat : (((2 ^ (8 * w - 1) : Nat)) : Int) = (2 : Int) ^ (8 * w - 1) := by
    push_cast
    rfl
  by_cases hn : 0 ≤ n
  · rw [if_pos hn] at hval
    have hmn : ((n % (2 ^ (8 * w) : Int)).toNat : Int) = n := by rw [hm, hval]
    rw [if_pos]
    · exact hmn
    · have h1 : ((n % (2 ^ (8 * w) : Int)).toNat : Int) < (((2 ^ (8 * w - 1) : Nat)) : Int) := by
        rw [hmn, hKnat]
        omega
      exact_mod_cast h1
  · rw [if_neg hn] at hval
    have hmn : ((n % (2 ^ (8 * w) : Int)).toNat : Int) = n + 2 ^ (8 * w) := by
      rw [hm, hval]
    rw [if_neg]
    · rw [hmn]
      ring
    · intro hcon
      have h1 : ((n % (2 ^ (8 * w) : Int)).toNat : Int) < (((2 ^ (8 * w - 1) : Nat)) : Int) := by
        exact_mod_cast hcon
      rw [hmn, hKnat] at h1
      omega

theorem decode_int_frame (w : Nat) (hw : 1 ≤ w) (n : Int)
    (hlo : -(2 ^ (8 * w - 1) : Int) ≤ n)
    (hhi : n < (2 ^ (8 * w - 1) : Int)) (rest : List Nat) :
    decodeValue (.intS w) (beBytes w (n % (2 ^ (8 * w) : Int)).toNat ++ rest)
      = .ok (.intV w n, rest) := by
  have hre := readExactPad_exact (beBytes w (n % (2 ^ (8 * w) : Int)).toNat) rest
  rw [beBytes_length] at hre
  simp only [decodeValue]
  rw [hre, fromBeBytes_beBytes, toSigned_emod w hw n hlo hhi]

/-! ## UTF-8 lemmas -/

theorem utf8Len_pos (c : Nat) : 1 ≤ utf8Len c ∧ utf8Len c ≤ 4 := by
  unfold utf8Len
  split_ifs <;> omega

theorem utf8EncodeChar_length (c : Nat) :
    (utf8EncodeChar c).length = utf8Len c := by
  unfold utf8EncodeChar utf8Len
  split_ifs <;> rfl

theorem utf8DecodeOne_encode (c : Nat) (h : validScalar c = true)
    (rest : List Nat) :
    utf8DecodeOne (utf8EncodeChar c ++ rest) = some (c, rest) := by
  have hval : c < 0xD800 ∨ (0xE000 ≤ c ∧ c < 0x110000) := by
    simp only [validScalar, Bool.or_eq_true, Bool.and_eq_true,
      decide_eq_true_eq] at h
    omega
  by_cases h1 : c < 0x80
  · rw [utf8EncodeChar, if_pos h1, List.singleton_append]
    simp only [utf8DecodeOne]
    rw [if_pos h1]
  by_cases h2 : c < 0x800
  · rw [utf8EncodeChar, if_neg h1, if_pos h2]
    simp only [List.cons_append, List.nil_append, utf8DecodeOne]
    rw [if_neg (by omega), if_neg (by omega), if_pos (by omega)]
    rw [if_pos (show isCont (0x80 + c % 64) = true by
      simp only [isCont, Bool.and_eq_true, decide_eq_true_eq]
      omega)]
    rw [if_pos (by omega)]
    have : (0xC0 + c / 64 - 0xC0) * 0x40 + (0x80 + c % 64 - 0x80) = c := by
      omega
    rw [this]
  by_cases h3 : c < 0x10000
  · rw [utf8EncodeChar, if_neg h1, if_neg h2, if_pos h3]
    simp only [List.cons_append, List.nil_append, utf8DecodeOne]
    rw [if_neg (by omega), if_neg (by omega), if_neg (by omega),
      if_pos (by omega)]
    rw [if_pos (show (isCont (0x80 + c / 64 % 64) && isCont (0x80 + c % 64))
        = true by
      simp only [isCont, Bool.and_eq_true, decide_eq_true_eq]
      omega)]
    have hc : (0xE0 + c / 4096 - 0xE0) * 0x1000 + (0x80 + c / 64 % 64 - 0x80) * 0x40
        + (0x80 + c % 64 - 0x80) = c := by omega
    rw [hc]
    rw [if_pos (by
      simp only [Bool.and_eq_true, Bool.not_eq_eq_eq_not, Bool.not_true,
        decide_eq_true_eq, Bool.not_and, Bool.or_eq_true,
        Bool.not_eq_true, decide_eq_false_iff_not]
      constructor
      · omega
      · omega)]
  · rw [utf8EncodeChar, if_neg h1, if_neg h2, if_neg h3]
    simp only [List.cons_append, List.nil_append, utf8DecodeOne]
    have hup : c < 0x110000 := by omega
    rw [if_neg (by omega), if_neg (by omega), if_neg (by omega),
      if_neg (by omega), if_pos (by omega)]
    rw [if_pos (show (isCont (0x80 + c / 4096 % 64)
        && isCont (0x80 + c / 64 % 64) && isCont (0x80 + c % 64)) = true by
      simp only [isCont, Bool.and_eq_true, decide_eq_true_eq]
      omega)]
    have hc : (0xF0 + c / 262144 - 0xF0) * 0x40000
        + (0x80 + c / 4096 % 64 - 0x80) * 0x1000
        + (0x80 + c / 64 % 64 - 0x80) * 0x40 + (0x80 + c % 64 - 0x80) = c := by
      omega
    rw [hc]
    rw [if_pos (by
      simp only [Bool.and_eq_true, decide_eq_true_eq]
      omega)]

theorem utf8DecodeAllAux_nil (fuel : Nat) :
    utf8DecodeAllAux fuel [] = some [] := by
  cases fuel <;> rfl

theorem utf8DecodeAll_single (c : Nat) (h : validScalar c = true) :
    utf8DecodeAll (utf8EncodeChar c) = some [c] := by
  have hd := utf8DecodeOne_encode c h []
  rw [List.append_nil] at hd
  unfold utf8DecodeAll
  cases hl : utf8EncodeChar c with
  | nil =>
    have hlen := utf8EncodeChar_length c
    rw [hl] at hlen
    simp at hlen
    have hpos := (utf8Len_pos c).1
    omega
  | cons b r =>
    rw [hl] at hd
    simp only [List.length_cons, utf8DecodeAllAux]
    rw [hd]
    simp [utf8DecodeAllAux_nil]

theorem decode_char_frame (c : Nat) (h : validScalar c = true)
    (rest : List Nat) :
    decodeValue .charS
      ((encode_len_small (utf8Len c) :: utf8EncodeChar c) ++ rest)
      = .ok (.charV c, rest) := by
  have hb := utf8Len_pos c
  have hsmall : encode_len_small (utf8Len c) = utf8Len c :=
    Nat.mod_eq_of_lt (by omega)
  rw [List.cons_append, hsmall]
  simp only [decodeValue, readExactPad_cons, List.headD_cons,
    decode_len_small]
  rw [if_neg (by omega), if_neg (by omega)]
  have hre := readExactPad_exact (utf8EncodeChar c) rest
  rw [utf8EncodeChar_length] at hre
  rw [hre, utf8DecodeAll_single c h]

/-! ## Compound decode framing lemmas -/

theorem decode_bytes_frame (bs rest : List Nat) (hlen : bs.length < 2 ^ 64) :
    decodeValue .bytesS (encode_len_large bs.length ++ bs ++ rest)
      = .ok (.bytesV bs, rest) := by
  rw [encode_len_large_head bs.length hlen]
  have hra : ((lenDigits bs.length).length :: (lenDigits bs.length).reverse)
      ++ bs ++ rest
      = (lenDigits bs.length).length
        :: ((lenDigits bs.length).reverse ++ (bs ++ rest)) := by
    simp
  rw [hra]
  simp only [decodeValue, readExactPad_cons, List.headD_cons,
    decode_len_small]
  rw [show (lenDigits bs.length).length = (lenDigits bs.length).reverse.length
      by simp]
  rw [readExactPad_exact]
  simp only [decode_len_large_reverse, leVal_lenDigits]
  rw [readBytesBorrowed_exact]

theorem decode_seq_frame (elem : Shape) (n : Nat) (hn : n < 2 ^ 64)
    (payload : List Nat) :
    decodeValue (.seqS elem) (encode_len_large n ++ payload)
      = match decodeElems (decodeValue elem) n payload with
        | .ok (chain, st₃) => .ok (.seqV chain, st₃)
        | .err e => .err e
        | .panicked m => .panicked m := by
  rw [encode_len_large_head n hn]
  have hra : ((lenDigits n).length :: (lenDigits n).reverse) ++ payload
      = (lenDigits n).length :: ((lenDigits n).reverse ++ payload) := by
    simp
  rw [hra]
  simp only [decodeValue, readExactPad_cons, List.headD_cons,
    decode_len_small]
  rw [show (lenDigits n).length = (lenDigits n).reverse.length by simp]
  rw [readExactPad_exact]
  simp only [decode_len_large_reverse, leVal_lenDigits]

theorem decode_map_frame (key val : Shape) (n : Nat) (hn : n < 2 ^ 64)
    (payload : List Nat) :
    decodeValue (.mapS key val) (encode_len_large n ++ payload)
      = match decodeElems (decodeEntry key val) n payload with
        | .ok (chain, st₃) => .ok (.mapV chain, st₃)
        | .err e => .err e
        | .panicked m => .panicked m := by
  rw [encode_len_large_head n hn]
  have hra : ((lenDigits n).length :: (lenDigits n).reverse) ++ payload
      = (lenDigits n).length :: ((lenDigits n).reverse ++ payload) := by
    simp
  rw [hra]
  simp only [decodeValue, readExactPad_cons, List.headD_cons,
    decode_len_small]
  rw [show (lenDigits n).length = (lenDigits n).reverse.length by simp]
  rw [readExactPad_exact]
  simp only [decode_len_large_reverse, leVal_lenDigits]
  rfl

/-! ## Variant chain lemmas -/

theorem shapeAt_some_lt (variants : Shape) (i : Nat) (vs : Shape)
    (h : shapeAt variants i = some vs) : i < shapeChainLen variants := by
  induction variants generalizing i
  case sconsS hd tl ihh iht =>
    cases i with
    | zero => simp [shapeChainLen]
    | succ j =>
      simp only [shapeAt] at h
      have := iht j h
      simp only [shapeChainLen]
      omega
  all_goals simp [shapeAt] at h

theorem decodeVariantSel_at (name : String) (idx : Nat) (variants : Shape)
    (i : Nat) (vs : Shape) (h : shapeAt variants i = some vs) (st : List Nat) :
    decodeVariantSel name idx variants i st
      = decodeVariantPayload name idx vs st := by
  induction variants generalizing i
  case sconsS hd tl ihh iht =>
    cases i with
    | zero =>
      simp only [shapeAt, Option.some_inj] at h
      subst h
      rfl
    | succ j =>
      simp only [shapeAt] at h
      exact iht j h
  all_goals simp [shapeAt] at h

/-! ### Leaf byte computations -/

theorem encBytes_bool (b : Bool) :
    encBytes (.boolV b) = [if b then 1 else 0] := rfl

theorem encBytes_int (w : Nat) (n : Int) :
    encBytes (.intV w n) = beBytes w ((n % (2 ^ (8 * w) : Int)).toNat) := rfl

theorem encBytes_uint (w n : Nat) : encBytes (.uintV w n) = beBytes w n := rfl

theorem encBytes_f32 (bits : Nat) : encBytes (.f32V bits) = beBytes 4 bits := rfl

theorem encBytes_f64 (bits : Nat) : encBytes (.f64V bits) = beBytes 8 bits := rfl

theorem encBytes_char (c : Nat) :
    encBytes (.charV c) = encode_len_small (utf8Len c) :: utf8EncodeChar c := rfl

theorem encBytes_str (bs : List Nat) :
    encBytes (.strV bs) = encode_len_large bs.length ++ bs := rfl

theorem encBytes_bytes (bs : List Nat) :
    encBytes (.bytesV bs) = encode_len_large bs.length ++ bs := rfl

theorem encBytes_unit : encBytes .unitV = [] := rfl

theorem encBytes_none : encBytes .noneV = [0] := rfl

theorem encBytes_vnil : encBytes .vnil = [] := rfl

theorem validWidth_pos (w : Nat) (h : validWidth w = true) : 1 ≤ w := by
  simp only [validWidth, Bool.or_eq_true, decide_eq_true_eq] at h
  omega

/-! ## C1: the round trip

The statement is proved by strong induction on the size of the value,
simultaneously for the three positions a value can occupy: as a value
of a shape, as a sequence element chain, and as a map entry chain. -/

theorem roundtrip_strong (N : Nat) :
    ∀ (v : Value), sizeOf v < N →
      (∀ s : Shape, wf s v = true →
        encErr v = none
        ∧ ∀ rest, decodeValue s (encBytes v ++ rest) = .ok (v, rest))
      ∧ (∀ se : Shape, wfElems se v = true →
        encErr v = none
        ∧ ∀ rest, decodeElems (decodeValue se) (chainLen v)
            (encBytes v ++ rest) = .ok (v, rest))
      ∧ (∀ sk sv : Shape, wfEntries sk sv v = true →
        encErr v = none
        ∧ ∀ rest, decodeElems (decodeEntry sk sv) (chainLen v)
            (encBytes v ++ rest) = .ok (v, rest)) := by
  induction N with
  | zero => intro v hv; omega
  | succ N ihN =>
    intro v hv
    cases v with
    | boolV b =>
      refine ⟨?_, ?_, ?_⟩
      · intro s hwf
        cases s <;> simp only [wf, Bool.and_eq_true, decide_eq_true_eq] at hwf <;>
          try exact Bool.noConfusion hwf
        refine ⟨rfl, fun rest => ?_⟩
        rw [encBytes_bool]
        cases b
        · simp [decodeValue, readExactPad_cons]
        · simp [decodeValue, readExactPad_cons]
      · intro se hwf; simp only [wfElems] at hwf; exact Bool.noConfusion hwf
      · intro sk sv hwf; simp only [wfEntries] at hwf; exact Bool.noConfusion hwf
    | intV w' n =>
      refine ⟨?_, ?_, ?_⟩
      · intro s hwf
        cases s <;> simp only [wf, Bool.and_eq_true, decide_eq_true_eq] at hwf <;>
          try exact Bool.noConfusion hwf
        case intS w =>
          obtain ⟨⟨⟨hw', hvw⟩, hlo⟩, hhi⟩ := hwf
          subst hw'
          refine ⟨rfl, fun rest => ?_⟩
          rw [encBytes_int]
          exact decode_int_frame w' (validWidth_pos w' hvw) n hlo hhi rest
      · intro se hwf; simp only [wfElems] at hwf; exact Bool.noConfusion hwf
      · intro sk sv hwf; simp only [wfEntries] at hwf; exact Bool.noConfusion hwf
    | uintV w' n =>
      refine ⟨?_, ?_, ?_⟩
      · intro s hwf
        cases s <;> simp only [wf, Bool.and_eq_true, decide_eq_true_eq] at hwf <;>
          try exact Bool.noConfusion hwf
        case uintS w =>
          obtain ⟨⟨hw', hvw⟩, hn⟩ := hwf
          subst hw'
          refine ⟨rfl, fun rest => ?_⟩
          rw [encBytes_uint, decode_uint_frame]
          rw [pow_two_mul_eight] at hn
          rw [Nat.mod_eq_of_lt hn]
      · intro se hwf; simp only [wfElems] at hwf; exact Bool.noConfusion hwf
      · intro sk sv hwf; simp only [wfEntries] at hwf; exact Bool.noConfusion hwf
    | f32V bits =>
      refine ⟨?_, ?_, ?_⟩
      · intro s hwf
        cases s <;> simp only [wf, Bool.and_eq_true, decide_eq_true_eq] at hwf <;>
          try exact Bool.noConfusion hwf
        case f32S =>
          refine ⟨rfl, fun rest => ?_⟩
          rw [encBytes_f32, decode_f32_frame]
          rw [Nat.mod_eq_of_lt (by norm_num at hwf ⊢; omega)]
      · intro se hwf; simp only [wfElems] at hwf; exact Bool.noConfusion hwf
      · intro sk sv hwf; simp only [wfEntries] at hwf; exact Bool.noConfusion hwf
    | f64V bits =>
      refine ⟨?_, ?_, ?_⟩
      · intro s hwf
        cases s <;> simp only [wf, Bool.and_eq_true, decide_eq_true_eq] at hwf <;>
          try exact Bool.noConfusion hwf
        case f64S =>
          refine ⟨rfl, fun rest => ?_⟩
          rw [encBytes_f64, decode_f64_frame]
          rw [Nat.mod_eq_of_lt (by norm_num at hwf ⊢; omega)]
      · intro se hwf; simp only [wfElems] at hwf; exact Bool.noConfusion hwf
      · intro sk sv hwf; simp only [wfEntries] at hwf; exact Bool.noConfusion hwf
    | charV c =>
      refine ⟨?_, ?_, ?_⟩
      · intro s hwf
        cases s <;> simp only [wf, Bool.and_eq_true, decide_eq_true_eq] at hwf <;>
          try exact Bool.noConfusion hwf
        case charS =>
          refine ⟨rfl, fun rest => ?_⟩
          rw [encBytes_char]
          exact decode_char_frame c hwf rest
      · intro se hwf; simp only [wfElems] at hwf; exact Bool.noConfusion hwf
      · intro sk sv hwf; simp only [wfEntries] at hwf; exact Bool.noConfusion hwf
    | strV bs =>
      refine ⟨?_, ?_, ?_⟩
      · intro s hwf
        cases s <;> simp only [wf, Bool.and_eq_true, decide_eq_true_eq] at hwf <;>
          try exact Bool.noConfusion hwf
        case strS =>
          obtain ⟨hval, hlen⟩ := hwf
          refine ⟨rfl, fun rest => ?_⟩
          rw [encBytes_str, List.append_assoc, ← List.append_assoc]
          rw [decode_str_frame bs rest hlen, if_pos hval]
      · intro se hwf; simp only [wfElems] at hwf; exact Bool.noConfusion hwf
      · intro sk sv hwf; simp only [wfEntries] at hwf; exact Bool.noConfusion hwf
    | bytesV bs =>
      refine ⟨?_, ?_, ?_⟩
      · intro s hwf
        cases s <;> simp only [wf, Bool.and_eq_true, decide_eq_true_eq] at hwf <;>
          try exact Bool.noConfusion hwf
        case bytesS =>
          obtain ⟨hall, hlen⟩ := hwf
          refine ⟨rfl, fun rest => ?_⟩
          rw [encBytes_bytes, List.append_assoc, ← List.append_assoc]
          exact decode_bytes_frame bs rest hlen
      · intro se hwf; simp only [wfElems] at hwf; exact Bool.noConfusion hwf
      · intro sk sv hwf; simp only [wfEntries] at hwf; exact Bool.noConfusion hwf
    | unitV =>
      refine ⟨?_, ?_, ?_⟩
      · intro s hwf
        cases s <;> simp only [wf, Bool.and_eq_true, decide_eq_true_eq] at hwf <;>
          try exact Bool.noConfusion hwf
        refine ⟨rfl, fun rest => ?_⟩
        rw [encBytes_unit, List.nil_append]
        rfl
      · intro se hwf; simp only [wfElems] at hwf; exact Bool.noConfusion hwf
      · intro sk sv hwf; simp only [wfEntries] at hwf; exact Bool.noConfusion hwf
    | noneV =>
      refine ⟨?_, ?_, ?_⟩
      · intro s hwf
        cases s <;> simp only [wf, Bool.and_eq_true, decide_eq_true_eq] at hwf <;>
          try exact Bool.noConfusion hwf
        case optionS s' =>
          refine ⟨rfl, fun rest => ?_⟩
          rw [encBytes_none]
          simp [decodeValue, readExactPad_cons]
      · intro se hwf; simp only [wfElems] at hwf; exact Bool.noConfusion hwf
      · intro sk sv hwf; simp only [wfEntries] at hwf; exact Bool.noConfusion hwf
    | someV u =>
      have hu : sizeOf u < N := by
        have hspec : sizeOf (Value.someV u) = 1 + sizeOf u := rfl
        omega
      refine ⟨?_, ?_, ?_⟩
      · intro s hwf
        cases s <;> simp only [wf, Bool.and_eq_true, decide_eq_true_eq] at hwf <;>
          try exact Bool.noConfusion hwf
        case optionS s' =>
          obtain ⟨henc, hdec⟩ := ((ihN u hu).1) s' hwf
          refine ⟨(encErr_some u).trans henc, fun rest => ?_⟩
          rw [encBytes_some, List.cons_append]
          simp only [decodeValue, readExactPad_cons, List.headD_cons]
          norm_num
          rw [hdec rest]
      · intro se hwf; simp only [wfElems] at hwf; exact Bool.noConfusion hwf
      · intro sk sv hwf; simp only [wfEntries] at hwf; exact Bool.noConfusion hwf
    | vnil =>
      refine ⟨?_, ?_, ?_⟩
      · intro s hwf
        cases s <;> simp only [wf, Bool.and_eq_true, decide_eq_true_eq] at hwf <;>
          try exact Bool.noConfusion hwf
        case snilS =>
          refine ⟨rfl, fun rest => ?_⟩
          rw [encBytes_vnil, List.nil_append]
          rfl
      · intro se hwf
        refine ⟨rfl, fun rest => ?_⟩
        rw [encBytes_vnil, List.nil_append]
        rfl
      · intro sk sv hwf
        refine ⟨rfl, fun rest => ?_⟩
        rw [encBytes_vnil, List.nil_append]
        rfl
    | vcons h t =>
      have hh : sizeOf h < N := by
        have hspec : sizeOf (Value.vcons h t) = 1 + sizeOf h + sizeOf t := rfl
        omega
      have ht : sizeOf t < N := by
        have hspec : sizeOf (Value.vcons h t) = 1 + sizeOf h + sizeOf t := rfl
        omega
      refine ⟨?_, ?_, ?_⟩
      · intro s hwf
        cases s <;> simp only [wf, Bool.and_eq_true, decide_eq_true_eq] at hwf <;>
          try exact Bool.noConfusion hwf
        case sconsS sh stl =>
          obtain ⟨hwfh, hwft⟩ := hwf
          obtain ⟨hench, hdech⟩ := (ihN h hh).1 sh hwfh
          obtain ⟨henct, hdect⟩ := (ihN t ht).1 stl hwft
          refine ⟨(encErr_vcons h t hench).trans henct, fun rest => ?_⟩
          rw [encBytes_vcons h t hench, List.append_assoc]
          simp only [decodeValue]
          simp only [hdech (encBytes t ++ rest)]
          simp only [hdect rest]
      · intro se hwf
        simp only [wfElems, Bool.and_eq_true] at hwf
        obtain ⟨hwfh, hwft⟩ := hwf
        obtain ⟨hench, hdech⟩ := (ihN h hh).1 se hwfh
        obtain ⟨henct, hdect⟩ := (ihN t ht).2.1 se hwft
        refine ⟨(encErr_vcons h t hench).trans henct, fun rest => ?_⟩
        rw [encBytes_vcons h t hench, List.append_assoc]
        show decodeElems (decodeValue se) (chainLen t + 1)
          (encBytes h ++ (encBytes t ++ rest)) = _
        simp only [decodeElems]
        simp only [hdech (encBytes t ++ rest)]
        simp only [hdect rest]
      · intro sk sv hwf
        cases h <;> simp only [wfEntries, Bool.and_eq_true] at hwf <;>
          try exact Bool.noConfusion hwf
        case pairV a b =>
          have hab : sizeOf (Value.pairV a b) < N := by
            have hspec : sizeOf (Value.vcons (Value.pairV a b) t)
              = 1 + sizeOf (Value.pairV a b) + sizeOf t := rfl
            omega
          have ha : sizeOf a < N := by
            have hspec : sizeOf (Value.pairV a b) = 1 + sizeOf a + sizeOf b := rfl
            omega
          have hb : sizeOf b < N := by
            have hspec : sizeOf (Value.pairV a b) = 1 + sizeOf a + sizeOf b := rfl
            omega
          obtain ⟨⟨hwfa, hwfb⟩, hwft⟩ := hwf
          obtain ⟨henca, hdeca⟩ := (ihN a ha).1 sk hwfa
          obtain ⟨hencb, hdecb⟩ := (ihN b hb).1 sv hwfb
          obtain ⟨henct, hdect⟩ := (ihN t ht).2.2 sk sv hwft
          have hencp : encErr (Value.pairV a b) = none :=
            (encErr_pair a b henca).trans hencb
          refine ⟨(encErr_vcons _ t hencp).trans henct, fun rest => ?_⟩
          rw [encBytes_vcons _ t hencp, List.append_assoc,
            encBytes_pair a b henca, List.append_assoc]
          show decodeElems (decodeEntry sk sv) (chainLen t + 1)
            (encBytes a ++ (encBytes b ++ (encBytes t ++ rest))) = _
          simp only [decodeElems, decodeEntry]
          simp only [hdeca (encBytes b ++ (encBytes t ++ rest))]
          simp only [hdecb (encBytes t ++ rest)]
          simp only [hdect rest]
    | pairV a b =>
      refine ⟨?_, ?_, ?_⟩
      · intro s hwf
        cases s <;> simp only [wf, Bool.and_eq_true, decide_eq_true_eq] at hwf <;>
          try exact Bool.noConfusion hwf
      · intro se hwf; simp only [wfElems] at hwf; exact Bool.noConfusion hwf
      · intro sk sv hwf; simp only [wfEntries] at hwf; exact Bool.noConfusion hwf
    | tupleV fields =>
      have hf : sizeOf fields < N := by
        have hspec : sizeOf (Value.tupleV fields) = 1 + sizeOf fields := rfl
        omega
      refine ⟨?_, ?_, ?_⟩
      · intro s hwf
        cases s <;> simp only [wf, Bool.and_eq_true, decide_eq_true_eq] at hwf <;>
          try exact Bool.noConfusion hwf
        case tupleS fs =>
          obtain ⟨henc, hdec⟩ := (ihN fields hf).1 fs hwf
          refine ⟨henc, fun rest => ?_⟩
          rw [encBytes_tuple]
          simp only [decodeValue]
          simp only [hdec rest]
      · intro se hwf; simp only [wfElems] at hwf; exact Bool.noConfusion hwf
      · intro sk sv hwf; simp only [wfEntries] at hwf; exact Bool.noConfusion hwf
    | seqV elems =>
      have he : sizeOf elems < N := by
        have hspec : sizeOf (Value.seqV elems) = 1 + sizeOf elems := rfl
        omega
      refine ⟨?_, ?_, ?_⟩
      · intro s hwf
        cases s <;> simp only [wf, Bool.and_eq_true, decide_eq_true_eq] at hwf <;>
          try exact Bool.noConfusion hwf
        case seqS se =>
          obtain ⟨hwfe, hlen⟩ := hwf
          obtain ⟨henc, hdec⟩ := (ihN elems he).2.1 se hwfe
          refine ⟨(encErr_seq elems).trans henc, fun rest => ?_⟩
          rw [encBytes_seq, List.append_assoc]
          rw [decode_seq_frame se (chainLen elems) hlen (encBytes elems ++ rest)]
          simp only [hdec rest]
      · intro se hwf; simp only [wfElems] at hwf; exact Bool.noConfusion hwf
      · intro sk sv hwf; simp only [wfEntries] at hwf; exact Bool.noConfusion hwf
    | mapV entries =>
      have he : sizeOf entries < N := by
        have hspec : sizeOf (Value.mapV entries) = 1 + sizeOf entries := rfl
        omega
      refine ⟨?_, ?_, ?_⟩
      · intro s hwf
        cases s <;> simp only [wf, Bool.and_eq_true, decide_eq_true_eq] at hwf <;>
          try exact Bool.noConfusion hwf
        case mapS sk sv =>
          obtain ⟨hwfe, hlen⟩ := hwf
          obtain ⟨henc, hdec⟩ := (ihN entries he).2.2 sk sv hwfe
          refine ⟨(encErr_map entries).trans henc, fun rest => ?_⟩
          rw [encBytes_map, List.append_assoc]
          rw [decode_map_frame sk sv (chainLen entries) hlen
            (encBytes entries ++ rest)]
          simp only [hdec rest]
      · intro se hwf; simp only [wfElems] at hwf; exact Bool.noConfusion hwf
      · intro sk sv hwf; simp only [wfEntries] at hwf; exact Bool.noConfusion hwf
    | enumUnitV vname idx =>
      refine ⟨?_, ?_, ?_⟩
      · intro s hwf
        cases s <;> simp only [wf, Bool.and_eq_true, decide_eq_true_eq] at hwf <;>
          try exact Bool.noConfusion hwf
        case enumS sname variants =>
          obtain ⟨⟨hname, hidx⟩, hmatch⟩ := hwf
          subst hname
          split at hmatch
          case _ heq =>
            refine ⟨(encBytes_enumUnit vname idx hidx).2, fun rest => ?_⟩
            rw [(encBytes_enumUnit vname idx hidx).1, List.singleton_append]
            simp only [decodeValue, readExactPad_cons, List.headD_cons]
            rw [if_neg (by have := shapeAt_some_lt variants idx _ heq; omega)]
            rw [decodeVariantSel_at vname idx variants idx _ heq]
            rfl
          all_goals exact Bool.noConfusion hmatch
      · intro se hwf; simp only [wfElems] at hwf; exact Bool.noConfusion hwf
      · intro sk sv hwf; simp only [wfEntries] at hwf; exact Bool.noConfusion hwf
    | enumNewtypeV vname idx u =>
      have hu : sizeOf u < N := by
        have hspec : sizeOf (Value.enumNewtypeV vname idx u)
          = 1 + sizeOf vname + sizeOf idx + sizeOf u := rfl
        omega
      refine ⟨?_, ?_, ?_⟩
      · intro s hwf
        cases s <;> simp only [wf, Bool.and_eq_true, decide_eq_true_eq] at hwf <;>
          try exact Bool.noConfusion hwf
        case enumS sname variants =>
          obtain ⟨⟨hname, hidx⟩, hmatch⟩ := hwf
          subst hname
          split at hmatch
          case _ s' heq =>
            obtain ⟨henc, hdec⟩ := (ihN u hu).1 s' hmatch
            refine ⟨((encBytes_enumNewtype vname idx u hidx).2).trans henc,
              fun rest => ?_⟩
            rw [(encBytes_enumNewtype vname idx u hidx).1, List.cons_append]
            simp only [decodeValue, readExactPad_cons, List.headD_cons]
            rw [if_neg (by have := shapeAt_some_lt variants idx _ heq; omega)]
            rw [decodeVariantSel_at vname idx variants idx _ heq]
            simp only [decodeVariantPayload]
            simp only [hdec rest]
          all_goals exact Bool.noConfusion hmatch
      · intro se hwf; simp only [wfElems] at hwf; exact Bool.noConfusion hwf
      · intro sk sv hwf; simp only [wfEntries] at hwf; exact Bool.noConfusion hwf
    | enumTupleV vname idx fields =>
      have hf : sizeOf fields < N := by
        have hspec : sizeOf (Value.enumTupleV vname idx fields)
          = 1 + sizeOf vname + sizeOf idx + sizeOf fields := rfl
        omega
      refine ⟨?_, ?_, ?_⟩
      · intro s hwf
        cases s <;> simp only [wf, Bool.and_eq_true, decide_eq_true_eq] at hwf <;>
          try exact Bool.noConfusion hwf
        case enumS sname variants =>
          obtain ⟨⟨hname, hidx⟩, hmatch⟩ := hwf
          subst hname
          split at hmatch
          case _ fs heq =>
            obtain ⟨henc, hdec⟩ := (ihN fields hf).1 fs hmatch
            refine ⟨((encBytes_enumTuple vname idx fields hidx).2).trans henc,
              fun rest => ?_⟩
            rw [(encBytes_enumTuple vname idx fields hidx).1, List.cons_append]
            simp only [decodeValue, readExactPad_cons, List.headD_cons]
            rw [if_neg (by have := shapeAt_some_lt variants idx _ heq; omega)]
            rw [decodeVariantSel_at vname idx variants idx _ heq]
            simp only [decodeVariantPayload]
            simp only [hdec rest]
          all_goals exact Bool.noConfusion hmatch
      · intro se hwf; simp only [wfElems] at hwf; exact Bool.noConfusion hwf
      · intro sk sv hwf; simp only [wfEntries] at hwf; exact Bool.noConfusion hwf
    | enumStructV vname idx fields =>
      have hf : sizeOf fields < N := by
        have hspec : sizeOf (Value.enumStructV vname idx fields)
          = 1 + sizeOf vname + sizeOf idx + sizeOf fields := rfl
        omega
      refine ⟨?_, ?_, ?_⟩
      · intro s hwf
        cases s <;> simp only [wf, Bool.and_eq_true, decide_eq_true_eq] at hwf <;>
          try exact Bool.noConfusion hwf
        case enumS sname variants =>
          obtain ⟨⟨hname, hidx⟩, hmatch⟩ := hwf
          subst hname
          split at hmatch
          case _ fs heq =>
            obtain ⟨henc, hdec⟩ := (ihN fields hf).1 fs hmatch
            refine ⟨((encBytes_enumStruct vname idx fields hidx).2).trans henc,
              fun rest => ?_⟩
            rw [(encBytes_enumStruct vname idx fields hidx).1, List.cons_append]
            simp only [decodeValue, readExactPad_cons, List.headD_cons]
            rw [if_neg (by have := shapeAt_some_lt variants idx _ heq; omega)]
            rw [decodeVariantSel_at vname idx variants idx _ heq]
            simp only [decodeVariantPayload]
            simp only [hdec rest]
          all_goals exact Bool.noConfusion hmatch
      · intro se hwf; simp only [wfElems] at hwf; exact Bool.noConfusion hwf
      · intro sk sv hwf; simp only [wfEntries] at hwf; exact Bool.noConfusion hwf

/-- **C1.**  For every supported shape and every value of that shape the
encoder accepts (well-formed per `wf`: integers in range, valid UTF-8,
known-length sequences and maps, variant indices below 256 naming a
declared variant), serializing succeeds and deserializing the produced
bytes against the same shape returns a value equal to the original. -/
theorem roundtrip_decode_encode (s : Shape) (v : Value) (h : wf s v = true) :
    serialize v = .ok (encBytes v)
    ∧ deserialize s (encBytes v) = .ok v := by
  obtain ⟨henc, hdec⟩ := (roundtrip_strong (sizeOf v + 1) v (by omega)).1 s h
  constructor
  · unfold serialize
    rw [encodeVal_sink v [], henc]
    rfl
  · unfold deserialize
    have hd := hdec []
    rw [List.append_nil] at hd
    rw [hd]

/-- Witness for C1 at a compound concrete value: a record holding a
present optional boolean, a sequence of two unit variants of a
two-variant union, and the string "hi"; its bytes and the decoded
result are computed explicitly. -/
theorem roundtrip_decode_encode_witness :
    wf (.tupleS (.sconsS (.optionS .boolS)
        (.sconsS (.seqS (.enumS "E" (.sconsS .vsUnitS (.sconsS .vsUnitS .snilS))))
        (.sconsS .strS .snilS))))
      (.tupleV (.vcons (.someV (.boolV true))
        (.vcons (.seqV (.vcons (.enumUnitV "E" 1) (.vcons (.enumUnitV "E" 0) .vnil)))
        (.vcons (.strV [104, 105]) .vnil)))) = true
    ∧ serialize (.tupleV (.vcons (.someV (.boolV true))
        (.vcons (.seqV (.vcons (.enumUnitV "E" 1) (.vcons (.enumUnitV "E" 0) .vnil)))
        (.vcons (.strV [104, 105]) .vnil))))
      = .ok (encBytes (.tupleV (.vcons (.someV (.boolV true))
        (.vcons (.seqV (.vcons (.enumUnitV "E" 1) (.vcons (.enumUnitV "E" 0) .vnil)))
        (.vcons (.strV [104, 105]) .vnil)))))
    ∧ deserialize (.tupleS (.sconsS (.optionS .boolS)
        (.sconsS (.seqS (.enumS "E" (.sconsS .vsUnitS (.sconsS .vsUnitS .snilS))))
        (.sconsS .strS .snilS))))
        (encBytes (.tupleV (.vcons (.someV (.boolV true))
        (.vcons (.seqV (.vcons (.enumUnitV "E" 1) (.vcons (.enumUnitV "E" 0) .vnil)))
        (.vcons (.strV [104, 105]) .vnil)))))
      = .ok (.tupleV (.vcons (.someV (.boolV true))
        (.vcons (.seqV (.vcons (.enumUnitV "E" 1) (.vcons (.enumUnitV "E" 0) .vnil)))
        (.vcons (.strV [104, 105]) .vnil))))
    ∧ encBytes (.tupleV (.vcons (.someV (.boolV true))
        (.vcons (.seqV (.vcons (.enumUnitV "E" 1) (.vcons (.enumUnitV "E" 0) .vnil)))
        (.vcons (.strV [104, 105]) .vnil))))
      = [1, 1, 1, 2, 1, 0, 1, 2, 104, 105] :=
  ⟨by decide,
   (roundtrip_decode_encode (.tupleS (.sconsS (.optionS .boolS)
        (.sconsS (.seqS (.enumS "E" (.sconsS .vsUnitS (.sconsS .vsUnitS .snilS))))
        (.sconsS .strS .snilS))))
     (.tupleV (.vcons (.someV (.boolV true))
        (.vcons (.seqV (.vcons (.enumUnitV "E" 1) (.vcons (.enumUnitV "E" 0) .vnil)))
        (.vcons (.strV [104, 105]) .vnil)))) (by decide)).1,
   (roundtrip_decode_encode (.tupleS (.sconsS (.optionS .boolS)
        (.sconsS (.seqS (.enumS "E" (.sconsS .vsUnitS (.sconsS .vsUnitS .snilS))))
        (.sconsS .strS .snilS))))
     (.tupleV (.vcons (.someV (.boolV true))
        (.vcons (.seqV (.vcons (.enumUnitV "E" 1) (.vcons (.enumUnitV "E" 0) .vnil)))
        (.vcons (.strV [104, 105]) .vnil)))) (by decide)).2,
   by decide⟩

end Unbin

